import Mathlib

/-!
Verification development for the IIMC construction-project progress tracker.

The repository ships the React front end (task tree, quick-update views,
Gantt, reports page).  The FastAPI back end (task store, rollup engine,
history log, report filtering) is referenced by the front end and the
README but its source is not in the repository snapshot, so those parts
are modelled from the specification, as marked on each definition.
Front-end logic (`getDateRange`, report filename construction, `buildTree`,
quick-update task selection) is translated directly from the JavaScript
source.

Layout: all definitions first, then all theorems.
-/

namespace IIMC

/-- Status enum of a task, as used across the code base
(`not_started`, `in_progress`, `completed`, `delayed`, `at_risk`). -/
inductive Status where
  | not_started
  | in_progress
  | completed
  | delayed
  | at_risk
deriving DecidableEq

/-- The five fixed phases (`PHASES` constants in the front end). -/
inductive Phase where
  | pre_construction
  | admin_academic
  | auditorium
  | residential
  | external
deriving DecidableEq

/-- A task record, with the fields the API exposes (`task_id`, `name`,
`parent_task_id`, `phase`, `level`, `is_leaf`, `exclude_from_rollup`,
`start_date`, `end_date`, `duration`, `progress`, `status`,
`risk_flagged`, `risk_notes`).  Calendar dates are represented as
absolute day numbers (an `Int`), which preserves the orderings and the
day arithmetic the logic depends on. -/
structure Task where
  task_id : Nat
  name : String
  parent_task_id : Option Nat
  phase : Phase
  level : Nat
  is_leaf : Bool
  exclude_from_rollup : Bool
  start_date : Int
  end_date : Int
  duration : Nat
  progress : Nat
  status : Status
  risk_flagged : Bool
  risk_notes : Option String
deriving DecidableEq

/-- The task store: the arena of task records (spec section 9 describes a
flat mapping from id to record with parent back-references). -/
abbrev Store := List Task

/-- Look a task up by id (read-by-id of spec section 6). -/
def findTask (s : Store) (i : Nat) : Option Task :=
  s.find? (fun t => t.task_id == i)

/-- Modelled from the spec: status derivation (spec section 3), the back
end being absent from the snapshot.  "progress=100 ⇒ completed;
risk_flagged ⇒ at_risk (unless completed); past end_date with
progress<100 ⇒ delayed; progress>0 ⇒ in_progress; else not_started",
with the stated precedence (completed over risk over delayed over
in_progress over not_started).  `today` and `endDate` are day numbers;
"past end_date" is `endDate < today`. -/
def deriveStatus (today : Int) (progress : Nat) (endDate : Int) (risk : Bool) : Status :=
  if progress = 100 then .completed
  else if risk then .at_risk
  else if endDate < today then .delayed
  else if 0 < progress then .in_progress
  else .not_started

/-- The children of the task with id `i` (spec section 3: `is_leaf` is
true iff a task has no children; the parent graph is a tree). -/
def childrenOf (s : Store) (i : Nat) : List Task :=
  s.filter (fun t => t.parent_task_id == some i)

/-- The children of `i` that participate in the weighted average: spec
section 4.1, "children with `exclude_from_rollup=true` are omitted from
both numerator and denominator". -/
def includedChildren (s : Store) (i : Nat) : List Task :=
  (childrenOf s i).filter (fun t => !t.exclude_from_rollup)

/-- Denominator of the rollup: Σ child.duration over non-excluded
children (weight is the child's duration in days, spec section 4.1). -/
def weightSum (s : Store) (i : Nat) : Nat :=
  ((includedChildren s i).map (fun t => t.duration)).sum

/-- Numerator of the rollup: Σ child.progress × child.duration over
non-excluded children (spec section 4.1). -/
def weightedSum (s : Store) (i : Nat) : Nat :=
  ((includedChildren s i).map (fun t => t.progress * t.duration)).sum

/-- Modelled from the spec: the rollup value of a non-leaf task (spec
section 4.1), the back-end rollup engine being absent from the snapshot.
Progress is the duration-weighted average of the non-excluded children;
if all children are excluded it is the unweighted average of the
children's progress, and 0 when there are no children.  The rounding
rule, left open by the spec, is fixed to floor (truncating integer
division), which matches the spec's example 2500/30 → 83. -/
def rollupProgress (s : Store) (i : Nat) : Nat :=
  if includedChildren s i ≠ [] then weightedSum s i / weightSum s i
  else if childrenOf s i ≠ [] then
    ((childrenOf s i).map (fun t => t.progress)).sum / (childrenOf s i).length
  else 0

/-- Overwrite progress and status of a task record, leaving every other
field unchanged (the only fields the rollup walk writes). -/
def setProg (pr : Nat) (st : Status) (t : Task) : Task :=
  { t with progress := pr, status := st }

/-- Update-fields-by-id on the store (spec section 6): rewrite the
record whose id is `i`. -/
def updateTask (s : Store) (i : Nat) (pr : Nat) (st : Status) : Store :=
  s.map (fun t => if t.task_id == i then setProg pr st t else t)

/-- Modelled from the spec: the upward walk of `recomputeAncestors`
(spec section 4.1) — follow parent references to the root, and at each
ancestor recompute progress as the rollup of its children and re-derive
status.  `fuel` bounds the walk; the caller passes the store size, which
the well-formedness invariant shows is always sufficient. -/
def walkUp (today : Int) : Store → Option Nat → Nat → Store
  | s, none, _ => s
  | s, some _, 0 => s
  | s, some pid, fuel + 1 =>
      match findTask s pid with
      | none => s
      | some p =>
          let np := rollupProgress s pid
          let ns := deriveStatus today np p.end_date p.risk_flagged
          walkUp today (updateTask s pid np ns) p.parent_task_id fuel

/-- Failure conditions of spec section 7 that apply to the rollup
operation. -/
inductive RollupError where
  | notFound
deriving DecidableEq

/-- Modelled from the spec: `recomputeAncestors(taskId)` (spec section
4.1) — an unknown task id fails with NotFound and mutates nothing;
otherwise every ancestor up to the root is recomputed and the fully
updated store is returned (atomically from the caller's perspective,
spec sections 4.1 and 7). -/
def recomputeAncestors (today : Int) (s : Store) (i : Nat) : Except RollupError Store :=
  match findTask s i with
  | none => .error .notFound
  | some t => .ok (walkUp today s t.parent_task_id s.length)

/-- Well-formedness of the store, from the invariants of spec section 3:
task ids are unique, and every non-root task's parent exists and sits at
a strictly smaller level (level = depth from root), which makes the
parent graph a forest. -/
def WF (s : Store) : Prop :=
  (s.map (fun t => t.task_id)).Nodup ∧
  ∀ t ∈ s, ∀ pid, t.parent_task_id = some pid →
    ∃ p ∈ s, p.task_id = pid ∧ p.level < t.level

instance (s : Store) : Decidable (WF s) := by
  unfold WF; infer_instance

/-- Two task records that agree on every field except possibly progress
and status. -/
def SkelEq (t t' : Task) : Prop :=
  ∃ pr st, t' = setProg pr st t

/-- `s'` results from `s` by changing only progress/status, and only on
tasks whose id lies in `ids`. -/
def UnchangedOutside (ids : List Nat) (s s' : Store) : Prop :=
  List.Forall₂ (fun t t' => SkelEq t t' ∧ (t.task_id ∉ ids → t' = t)) s s'

/-- The chain of ancestor ids reached by following parent references
from `cur`, each resolved in the store. -/
inductive UpChainL (s : Store) : Option Nat → List Nat → Prop where
  | nil : UpChainL s none []
  | cons {pid : Nat} {p : Task} {ids : List Nat} :
      findTask s pid = some p → UpChainL s p.parent_task_id ids →
      UpChainL s (some pid) (pid :: ids)

/-- A task id whose stored record carries exactly the rollup progress of
its children and the status derived from it (spec section 4.1: holds for
every ancestor after `recomputeAncestors`). -/
def Consistent (today : Int) (s : Store) (i : Nat) : Prop :=
  ∀ t, findTask s i = some t →
    t.progress = rollupProgress s i ∧
    t.status = deriveStatus today (rollupProgress s i) t.end_date t.risk_flagged

/-- The three-branch specification of a recomputed ancestor's progress
(spec section 4.1): weighted average over non-excluded children, else
unweighted average over all children, else zero. -/
def RollupSpecAt (s : Store) (a : Nat) : Prop :=
  ∀ ta, findTask s a = some ta →
    (includedChildren s a ≠ [] →
      ta.progress = weightedSum s a / weightSum s a) ∧
    (includedChildren s a = [] → childrenOf s a ≠ [] →
      ta.progress =
        ((childrenOf s a).map (fun c => c.progress)).sum / (childrenOf s a).length) ∧
    (childrenOf s a = [] → ta.progress = 0)

/-- Concrete child with duration 10 and progress 50, for the worked
example of spec section 8. -/
def exChild1 : Task :=
  ⟨2, "child one", some 1, .pre_construction, 1, true, false, 0, 10, 10, 50,
    .in_progress, false, none⟩

/-- Concrete child with duration 20 and progress 100, for the worked
example of spec section 8. -/
def exChild2 : Task :=
  ⟨3, "child two", some 1, .pre_construction, 1, true, false, 0, 20, 20, 100,
    .completed, false, none⟩

/-- Concrete parent of the two example children. -/
def exParent : Task :=
  ⟨1, "parent", none, .pre_construction, 0, false, false, 0, 20, 30, 0,
    .not_started, false, none⟩

/-- The example store: one parent, two children of durations [10, 20]
and progresses [50, 100]. -/
def exStore : Store := [exParent, exChild1, exChild2]

/-- The example parent after recomputation: progress (10·50+20·100)/30 =
83 under floor rounding, status in_progress. -/
def exParentAfter : Task :=
  ⟨1, "parent", none, .pre_construction, 0, false, false, 0, 20, 30, 83,
    .in_progress, false, none⟩

/-- The example store after `recomputeAncestors` on child 2. -/
def exStoreAfter : Store := [exParentAfter, exChild1, exChild2]

/-- The action kinds a history entry is tagged with (spec section 3 and
the front-end badges: `progress_update`, `date_change`, `risk_change`). -/
inductive HAction where
  | progress_update
  | date_change
  | risk_change
deriving DecidableEq

/-- A history entry (spec section 3): task reference, action kind, old
and new value, optional notes, and the immutable creation timestamp. -/
structure HistoryEntry where
  task_id : Nat
  action : HAction
  old_value : String
  new_value : String
  notes : Option String
  timestamp : Nat
deriving DecidableEq

/-- Modelled from the spec: the history log state — the append-only list
of entries plus the server clock that assigns timestamps (spec section
4.2); the back-end history store is absent from the snapshot. -/
structure HistoryLog where
  entries : List HistoryEntry
  clock : Nat
deriving DecidableEq

/-- The log before any update. -/
def emptyLog : HistoryLog := ⟨[], 0⟩

/-- Modelled from the spec: `record(taskId, action, oldValue, newValue,
notes?)` appends one immutable entry with a server-assigned timestamp
(spec section 4.2). -/
def record (log : HistoryLog) (tid : Nat) (a : HAction) (ov nv : String)
    (notes : Option String) : HistoryLog :=
  ⟨log.entries ++ [⟨tid, a, ov, nv, notes, log.clock⟩], log.clock + 1⟩

/-- Modelled from the spec: `listFor(taskId)` produces the entries of
one task ordered newest-first (spec section 4.2; consumed by
`/tasks/(id)/history`). -/
def listFor (log : HistoryLog) (tid : Nat) : List HistoryEntry :=
  (log.entries.filter (fun e => e.task_id == tid)).reverse

/-- Modelled from the spec: `listRecent(limit)` produces the N most
recent entries system-wide, newest-first (spec section 4.2; consumed by
`/history/recent?limit=10` in the QuickUpdate page). -/
def listRecent (log : HistoryLog) (limit : Nat) : List HistoryEntry :=
  log.entries.reverse.take limit

/-- Display name of the task owning an entry (the `task_name` the
QuickUpdate recent-updates strip shows next to each entry). -/
def taskNameOf (tasks : List Task) (i : Nat) : String :=
  ((findTask tasks i).map (fun t => t.name)).getD ""

/-- Modelled from the spec: the recent entries each annotated with the
owning task's display name for presentation (spec section 4.2). -/
def listRecentNamed (tasks : List Task) (log : HistoryLog) (limit : Nat) :
    List (HistoryEntry × String) :=
  (listRecent log limit).map (fun e => (e, taskNameOf tasks e.task_id))

/-- One update request, as passed to `record`. -/
structure RecordOp where
  tid : Nat
  action : HAction
  old_value : String
  new_value : String
  notes : Option String
deriving DecidableEq

/-- Apply a sequence of updates to the log, in order. -/
def applyOps (log : HistoryLog) : List RecordOp → HistoryLog
  | [] => log
  | op :: rest =>
      applyOps (record log op.tid op.action op.old_value op.new_value op.notes) rest

/-- Internal invariant of the history log: every stored timestamp is
below the clock, and timestamps strictly increase along the list. -/
def LogWF (log : HistoryLog) : Prop :=
  (∀ e ∈ log.entries, e.timestamp < log.clock) ∧
  log.entries.Pairwise (fun a b => a.timestamp < b.timestamp)

/-- The full history contract of C5 for a log built from `ops`:
`listFor` returns exactly the task's updates newest-first; a further
`record` only prefixes (never rewrites) what was listed before;
`listRecent` returns the most recent entries system-wide newest-first;
and the recent view is annotated with the owning task's name. -/
def HistorySpec (ops : List RecordOp) (tid limit : Nat) (tasks : List Task)
    (op : RecordOp) : Prop :=
  (listFor (applyOps emptyLog ops) tid).length =
      (ops.filter (fun o => o.tid == tid)).length ∧
  (listFor (applyOps emptyLog ops) tid).Pairwise
      (fun a b => b.timestamp < a.timestamp) ∧
  listFor (record (applyOps emptyLog ops) op.tid op.action op.old_value
        op.new_value op.notes) tid =
      (if op.tid == tid then
        [⟨op.tid, op.action, op.old_value, op.new_value, op.notes,
          (applyOps emptyLog ops).clock⟩]
      else []) ++ listFor (applyOps emptyLog ops) tid ∧
  (listRecent (applyOps emptyLog ops) limit).Pairwise
      (fun a b => b.timestamp < a.timestamp) ∧
  (listRecent (applyOps emptyLog ops) limit).length =
      min limit (applyOps emptyLog ops).entries.length ∧
  (∀ e ∈ listRecent (applyOps emptyLog ops) limit,
    ∀ e' ∈ (applyOps emptyLog ops).entries,
      e' ∉ listRecent (applyOps emptyLog ops) limit →
      e'.timestamp < e.timestamp) ∧
  (∀ x ∈ listRecentNamed tasks (applyOps emptyLog ops) limit,
    x.2 = taskNameOf tasks x.1.task_id)

/-- Modelled from the spec: the report filter pipeline (spec section
4.3), the back-end generator being absent from the snapshot.  A `none`
filter is the front end's `all`; a task passes when its phase matches
(or no phase filter), its status matches (or no status filter), and —
when a date range is given — its interval [start_date, end_date]
overlaps the requested range. -/
def reportTasks (ts : List Task) (pf : Option Phase) (sf : Option Status)
    (dr : Option (Int × Int)) : List Task :=
  ((ts.filter (fun t =>
      match pf with
      | none => true
      | some p => t.phase == p)).filter (fun t =>
      match sf with
      | none => true
      | some st => t.status == st)).filter (fun t =>
      match dr with
      | none => true
      | some (a, b) => decide (t.start_date ≤ b) && decide (a ≤ t.end_date))

/-- The inclusion contract of C7: membership in the generated report is
exactly phase match (or all) and status match (or all) and interval
overlap with the requested range (when given). -/
def ReportSpec (ts : List Task) (pf : Option Phase) (sf : Option Status)
    (dr : Option (Int × Int)) (t : Task) : Prop :=
  t ∈ reportTasks ts pf sf dr ↔
    t ∈ ts ∧ (∀ p, pf = some p → t.phase = p) ∧
    (∀ st, sf = some st → t.status = st) ∧
    (∀ a b, dr = some (a, b) → t.start_date ≤ b ∧ a ≤ t.end_date)

/-- `searchText.startsWith pattern` over character lists, as used to
implement the substring check of JavaScript `String.includes`. -/
def listStartsWith : List Char → List Char → Bool
  | _, [] => true
  | [], _ :: _ => false
  | c :: cs, d :: ds => c == d && listStartsWith cs ds

/-- Substring occurrence over character lists (the semantics of
JavaScript `String.includes`). -/
def listContainsSub : List Char → List Char → Bool
  | [], p => p.isEmpty
  | c :: rest, p => listStartsWith (c :: rest) p || listContainsSub rest p

/-- JavaScript `s.includes(sub)`. -/
def strIncludes (s sub : String) : Bool :=
  listContainsSub s.data sub.data

/-- `FloatingUpdateButton.fetchTasks` (part_000 line 65): the update
candidates are the leaf tasks not excluded from rollup,
`res.data.filter(t => t.is_leaf && !t.exclude_from_rollup)`. -/
def fabLeafTasks (ts : List Task) : List Task :=
  ts.filter (fun t => t.is_leaf && !t.exclude_from_rollup)

/-- `FloatingUpdateButton.filteredTasks` (part_000 lines 79-86): the
candidates narrowed by the search box (name or id contains the
lower-cased query) and capped at 50 entries. -/
def fabFilteredTasks (ts : List Task) (query : String) : List Task :=
  if query = "" then (fabLeafTasks ts).take 50
  else
    ((fabLeafTasks ts).filter (fun t =>
      strIncludes t.name.toLower query.toLower ||
      strIncludes (Nat.repr t.task_id) query.toLower)).take 50

/-- `QuickUpdate.leafTasks` (part_002 line 244):
`tasks.filter(t => t.is_leaf && !t.exclude_from_rollup)`. -/
def quickLeafTasks (ts : List Task) : List Task :=
  ts.filter (fun t => t.is_leaf && !t.exclude_from_rollup)

/-- `QuickUpdate.filtered` (part_002 lines 245-247): the leaf candidates
narrowed by the phase selector and the search box. -/
def quickFilteredTasks (ts : List Task) (phase : Option Phase)
    (search : String) : List Task :=
  let l2 :=
    match phase with
    | none => quickLeafTasks ts
    | some p => (quickLeafTasks ts).filter (fun t => t.phase == p)
  if search = "" then l2
  else
    l2.filter (fun t =>
      strIncludes t.name.toLower search.toLower ||
      strIncludes (Nat.repr t.task_id) search)

/-- The three ways `TaskRow` (TaskTree.js lines 80-104) renders the
progress cell: an editable number input, an editable button, or a
read-only span. -/
inductive ProgressCell where
  | editInput
  | editButton
  | readOnly
deriving DecidableEq

/-- `TaskRow`'s progress cell: leaf tasks get an editable control
(input while editing, button otherwise); non-leaf tasks only get the
read-only percentage span. -/
def taskRowProgressCell (t : Task) (editing : Bool) : ProgressCell :=
  if t.is_leaf then (if editing then .editInput else .editButton)
  else .readOnly

/-- The quick-update contract of C10: both quick-update candidate sets
are exactly the non-excluded leaf tasks, every task reachable through
their search/phase filters is still a non-excluded leaf, and the task
tree's progress control is editable exactly on leaf tasks. -/
def QuickUpdateSpec (ts : List Task) (query : String) (phase : Option Phase)
    (search : String) (t : Task) (editing : Bool) : Prop :=
  (t ∈ fabLeafTasks ts ↔
    t ∈ ts ∧ t.is_leaf = true ∧ t.exclude_from_rollup = false) ∧
  (t ∈ quickLeafTasks ts ↔
    t ∈ ts ∧ t.is_leaf = true ∧ t.exclude_from_rollup = false) ∧
  (t ∈ fabFilteredTasks ts query →
    t.is_leaf = true ∧ t.exclude_from_rollup = false) ∧
  (t ∈ quickFilteredTasks ts phase search →
    t.is_leaf = true ∧ t.exclude_from_rollup = false) ∧
  (taskRowProgressCell t editing ≠ .readOnly ↔ t.is_leaf = true)

/-- The four report kinds of the Reports page (`REPORT_TYPES` in
part_001). -/
inductive ReportType where
  | full
  | daily
  | weekly
  | monthly
deriving DecidableEq

/-- The two output formats of the Reports page (`format` state in
part_001: "excel" or "pdf"). -/
inductive OutFormat where
  | excel
  | pdf
deriving DecidableEq

/-- The lower-case name of a report kind, as interpolated into the
filename by `reportLabel` (part_001 line 116). -/
def reportTypeName : ReportType → String
  | .full => "full"
  | .daily => "daily"
  | .weekly => "weekly"
  | .monthly => "monthly"

/-- The filename extension chosen in part_001 line 117:
`format === "excel" ? "xlsx" : "pdf"`. -/
def extName : OutFormat → String
  | .excel => "xlsx"
  | .pdf => "pdf"

/-- The decimal digit character for `k mod 10`. -/
def digitChar (k : Nat) : Char :=
  match k % 10 with
  | 0 => '0'
  | 1 => '1'
  | 2 => '2'
  | 3 => '3'
  | 4 => '4'
  | 5 => '5'
  | 6 => '6'
  | 7 => '7'
  | 8 => '8'
  | _ => '9'

/-- A number printed as exactly two decimal digits (zero padded), as in
the month/day fields of `Date.toISOString`. -/
def pad2 (n : Nat) : String :=
  ⟨[digitChar (n / 10), digitChar n]⟩

/-- A number printed as exactly four decimal digits (zero padded), as in
the year field of `Date.toISOString`. -/
def pad4 (n : Nat) : String :=
  ⟨[digitChar (n / 1000), digitChar (n / 100), digitChar (n / 10), digitChar n]⟩

/-- A calendar date with the JavaScript `Date` accessors: `getFullYear`,
`getMonth` (0-based: January = 0), `getDate` (1-based day of month). -/
structure JSDate where
  year : Int
  month : Int
  day : Int
deriving DecidableEq

/-- `formatDate` of part_001 line 42 —
`d.toISOString().split('T')[0]`, the "YYYY-MM-DD" date string (the
front end's dates are modelled in a single zone, so the UTC conversion
inside `toISOString` is the identity). -/
def formatDate (d : JSDate) : String :=
  pad4 d.year.toNat ++ "-" ++ pad2 (d.month + 1).toNat ++ "-" ++ pad2 d.day.toNat

/-- The `dateStr.replace` call of part_001 line 117, whose global regex
replaces every dash with the empty string: drop every dash. -/
def removeDashes (s : String) : String :=
  ⟨s.data.filter (fun c => c != '-')⟩

/-- The eight-digit YYYYMMDD rendering of a date. -/
def yyyymmdd (d : JSDate) : String :=
  pad4 d.year.toNat ++ pad2 (d.month + 1).toNat ++ pad2 d.day.toNat

/-- The suggested download filename built in part_001 lines 114-117:
the concatenation of "IIMC", the report label, "_Report_", the
dash-stripped date string, a dot and the extension, where the report
label is empty for the full report and an underscore plus the report
type otherwise. -/
def suggestedFilename (rt : ReportType) (fmt : OutFormat) (dateStr : String) :
    String :=
  "IIMC" ++ (if rt = .full then "" else "_" ++ reportTypeName rt) ++
    "_Report_" ++ removeDashes dateStr ++ "." ++ extName fmt

/-- The filename contract of C8: the name decomposes as
`IIMC[_<reportType>]_Report_<YYYYMMDD>.<xlsx|pdf>`, the report-type
segment is present exactly for non-full reports, the date collapses to
eight decimal digits, and the extension tracks the format. -/
def FilenameSpec (rt : ReportType) (fmt : OutFormat) (d : JSDate) : Prop :=
  suggestedFilename rt fmt (formatDate d) =
      "IIMC" ++ (if rt = .full then "" else "_" ++ reportTypeName rt) ++
        "_Report_" ++ yyyymmdd d ++ "." ++ extName fmt ∧
  (yyyymmdd d).length = 8 ∧
  (∀ c ∈ (yyyymmdd d).data, c.isDigit = true) ∧
  ((if rt = ReportType.full then "" else "_" ++ reportTypeName rt) = "" ↔
    rt = .full) ∧
  (extName fmt = "xlsx" ↔ fmt = .excel) ∧
  (extName fmt = "pdf" ↔ fmt = .pdf)

/-- Gregorian leap-year rule, as implemented by JavaScript `Date`. -/
def isLeap (y : Int) : Bool :=
  (y % 4 == 0 && y % 100 != 0) || y % 400 == 0

/-- Days in a month (0-based month as in JavaScript: January = 0). -/
def daysInMonth (y m : Int) : Int :=
  if m = 1 then (if isLeap y then 29 else 28)
  else if m = 3 ∨ m = 5 ∨ m = 8 ∨ m = 10 then 30
  else 31

/-- Days of year `y` that precede month `m` (0-based). -/
def daysBeforeMonth (y m : Int) : Int :=
  (if m ≤ 0 then 0
   else if m = 1 then 31
   else if m = 2 then 59
   else if m = 3 then 90
   else if m = 4 then 120
   else if m = 5 then 151
   else if m = 6 then 181
   else if m = 7 then 212
   else if m = 8 then 243
   else if m = 9 then 273
   else if m = 10 then 304
   else 334) +
  (if 2 ≤ m ∧ isLeap y then 1 else 0)

/-- Leap years strictly before year `y` (relative count; only
differences matter below). -/
def leapCount (y : Int) : Int :=
  (y - 1) / 4 - (y - 1) / 100 + (y - 1) / 400

/-- Day number of Jan 1 of year `y`, with day 0 = 1970-01-01 (the epoch
of JavaScript `Date`). -/
def daysFromYear (y : Int) : Int :=
  365 * (y - 1970) + leapCount y - leapCount 1970

/-- Absolute day number of a civil date (days since 1970-01-01),
mirroring the arithmetic JavaScript `Date` performs internally. -/
def toDays (d : JSDate) : Int :=
  daysFromYear d.year + daysBeforeMonth d.year d.month + d.day - 1

/-- JavaScript `getDay()`: day of week, Sunday = 0.  1970-01-01 was a
Thursday (= 4). -/
def jsGetDay (d : JSDate) : Int :=
  (toDays d + 4) % 7

/-- A well-formed civil date: month in 0..11 and day within the month. -/
def ValidDate (d : JSDate) : Prop :=
  0 ≤ d.month ∧ d.month ≤ 11 ∧ 1 ≤ d.day ∧ d.day ≤ daysInMonth d.year d.month

instance (d : JSDate) : Decidable (ValidDate d) := by
  unfold ValidDate; infer_instance

/-- JavaScript `setDate(n)` on a valid date, for offsets that stay
within one adjacent month (all `getDateRange` uses are within six days
of a valid day-of-month): replace the day of month by `n`, borrowing
into the previous month when `n < 1` and carrying into the next month
when `n` exceeds the month length. -/
def jsSetDate (dt : JSDate) (n : Int) : JSDate :=
  if n < 1 then
    (if dt.month = 0 then ⟨dt.year - 1, 11, 31 + n⟩
     else ⟨dt.year, dt.month - 1, daysInMonth dt.year (dt.month - 1) + n⟩)
  else if n ≤ daysInMonth dt.year dt.month then ⟨dt.year, dt.month, n⟩
  else
    (if dt.month = 11 then ⟨dt.year + 1, 0, n - 31⟩
     else ⟨dt.year, dt.month + 1, n - daysInMonth dt.year dt.month⟩)

/-- JavaScript `new Date(y, m, d)` for the arguments `getDateRange`
passes (month possibly 12, day 0 or 1): normalise the month into 0..11
shifting the year, then resolve the day via `jsSetDate` (day 0 denotes
the last day of the preceding month). -/
def jsNewDate (y m dd : Int) : JSDate :=
  jsSetDate ⟨y + m / 12, m % 12, 1⟩ dd

/-- `getDateRange(reportType)` of part_001 lines 40-62, relative to
`today`: daily is today..today; weekly runs from the Sunday of the
current week (`today.getDate() - today.getDay()`) for seven days;
monthly runs from the first to the last day of the current month
(`new Date(y, m, 1)` .. `new Date(y, m+1, 0)`); the full kind carries
no date range (part_001 lines 59-61 and 81-90 clear both bounds). -/
def getDateRange (rt : ReportType) (today : JSDate) : Option (JSDate × JSDate) :=
  match rt with
  | .daily => some (today, today)
  | .weekly =>
      let ws := jsSetDate today (today.day - jsGetDay today)
      let we := jsSetDate ws (ws.day + 6)
      some (ws, we)
  | .monthly =>
      some (jsNewDate today.year today.month 1,
        jsNewDate today.year (today.month + 1) 0)
  | .full => none

/-- The canonical date-range contract of C6: daily = today only; weekly
= the Sunday-through-Saturday week containing today (start is a Sunday,
seven days, today inside); monthly = the first through last day of
today's month (today inside); full = no range at all. -/
def DateRangeSpec (today : JSDate) : Prop :=
  getDateRange .daily today = some (today, today) ∧
  (∀ ws we, getDateRange .weekly today = some (ws, we) →
    jsGetDay ws = 0 ∧ ValidDate ws ∧ ValidDate we ∧
    toDays we = toDays ws + 6 ∧
    toDays ws ≤ toDays today ∧ toDays today ≤ toDays we) ∧
  getDateRange .monthly today =
    some (⟨today.year, today.month, 1⟩,
      ⟨today.year, today.month, daysInMonth today.year today.month⟩) ∧
  (∀ ms me, getDateRange .monthly today = some (ms, me) →
    toDays ms ≤ toDays today ∧ toDays today ≤ toDays me) ∧
  getDateRange .full today = none

/-- The id map built by the first pass of `buildTree` (TaskTree.js line
34): every record is written under its `task_id`, so with duplicate ids
the last record wins. -/
def idMap (ts : List Task) (i : Nat) : Option Task :=
  (ts.filter (fun t => t.task_id == i)).getLast?

/-- A node of the forest `buildTree` produces: a task record plus its
children. -/
inductive TNode where
  | mk (task : Task) (children : List TNode)

/-- The task stored at a node. -/
def TNode.task : TNode → Task
  | ⟨t, _⟩ => t

/-- The children of a node. -/
def TNode.children : TNode → List TNode
  | ⟨_, c⟩ => c

/-- The object graph `buildTree` wires (TaskTree.js lines 36-42),
unfolded from one node: each input record `t` with
`t.parent_task_id === u.task_id` pushes the node `map[t.task_id]` onto
`u`'s children, in input order.  `fuel` bounds the unfolding depth; the
parts of the graph reachable from a root are shallower than the input
length, so the callers' fuel never runs out there (proved below). -/
def buildNode (ts : List Task) : Nat → Task → TNode
  | 0, u => ⟨u, []⟩
  | fuel + 1, u =>
      ⟨u, (ts.filter (fun t => t.parent_task_id == some u.task_id)).map
        (fun t => buildNode ts fuel ((idMap ts t.task_id).getD t))⟩

/-- `buildTree(tasks)` (TaskTree.js lines 32-44): the forest of the
nodes `map[t.task_id]` of the records with a null/undefined parent
reference, with children wired as in `buildNode`. -/
def buildTree (ts : List Task) : List TNode :=
  (ts.filter (fun t => t.parent_task_id == none)).map
    (fun t => buildNode ts ts.length ((idMap ts t.task_id).getD t))

mutual

/-- All task records in a tree, preorder. -/
def flatNode : TNode → List Task
  | ⟨t, cs⟩ => t :: flatForest cs

/-- All task records in a forest, preorder. -/
def flatForest : List TNode → List Task
  | [] => []
  | n :: ns => flatNode n ++ flatForest ns

end

mutual

/-- All nodes of a tree, preorder. -/
def allNodesOf : TNode → List TNode
  | ⟨t, cs⟩ => ⟨t, cs⟩ :: allNodesForest cs

/-- All nodes of a forest, preorder. -/
def allNodesForest : List TNode → List TNode
  | [] => []
  | n :: ns => allNodesOf n ++ allNodesForest ns

end

/-- A record is reachable when it is a root (null parent reference) or
its parent reference resolves, within the input list, to a reachable
record — C9's "reachable from a root through parent references that are
all present in the input list". -/
inductive Reachable (ts : List Task) : Task → Prop where
  | root {t : Task} : t ∈ ts → t.parent_task_id = none → Reachable ts t
  | child {u t : Task} :
      Reachable ts u → t ∈ ts → t.parent_task_id = some u.task_id →
      Reachable ts t

/-- A full parent chain from some root down to `t`, listed top-down. -/
inductive ChainTo (ts : List Task) : List Task → Task → Prop where
  | root {t : Task} : t ∈ ts → t.parent_task_id = none → ChainTo ts [t] t
  | step {c : List Task} {u t : Task} :
      ChainTo ts c u → t ∈ ts → t.parent_task_id = some u.task_id →
      ChainTo ts (c ++ [t]) t

/-- A downward chain from `u` to `x` through child links, listed
top-down and excluding `u` itself. -/
inductive ChainFrom (ts : List Task) : Task → List Task → Task → Prop where
  | refl (u : Task) : ChainFrom ts u [] u
  | step {u w x : Task} {d : List Task} :
      w ∈ ts → w.parent_task_id = some u.task_id → ChainFrom ts w d x →
      ChainFrom ts u (w :: d) x

/-- The buildTree contract of C9 (amended with distinct ids): the
flattened forest holds exactly the reachable records, each reachable
record exactly once, and every produced node's children are exactly the
input records whose parent reference is that node's id (so each record
hangs under its referenced parent). -/
def BuildTreeSpec (ts : List Task) : Prop :=
  (∀ t : Task, t ∈ flatForest (buildTree ts) ↔ Reachable ts t) ∧
  (∀ t : Task, Reachable ts t → (flatForest (buildTree ts)).count t = 1) ∧
  (∀ nd ∈ allNodesForest (buildTree ts),
    nd.children.map TNode.task =
      ts.filter (fun t => t.parent_task_id == some nd.task.task_id))

/-- Duplicate-id counterexample input, record one: id 1, root. -/
def cexA : Task :=
  ⟨1, "alpha", none, .pre_construction, 0, true, false, 0, 1, 1, 0,
    .not_started, false, none⟩

/-- Duplicate-id counterexample input, record two: same id 1, root. -/
def cexB : Task :=
  ⟨1, "beta", none, .pre_construction, 0, true, false, 0, 1, 1, 0,
    .not_started, false, none⟩

/-! ## Theorems -/

/-- C2: for every task, `deriveStatus` is a pure function of
(progress, today vs end_date, risk_flagged) with the fixed precedence:
progress=100 yields completed; otherwise risk yields at_risk; otherwise
past end_date (with progress < 100) yields delayed; otherwise
progress>0 yields in_progress; otherwise not_started. -/
theorem status_precedence (today endDate : Int) (progress : Nat) (risk : Bool) :
    (deriveStatus today progress endDate risk = .completed ↔ progress = 100) ∧
    (deriveStatus today progress endDate risk = .at_risk ↔ progress ≠ 100 ∧ risk = true) ∧
    (deriveStatus today progress endDate risk = .delayed ↔
      progress ≠ 100 ∧ risk = false ∧ endDate < today) ∧
    (deriveStatus today progress endDate risk = .in_progress ↔
      progress ≠ 100 ∧ risk = false ∧ ¬ endDate < today ∧ 0 < progress) ∧
    (deriveStatus today progress endDate risk = .not_started ↔
      progress ≠ 100 ∧ risk = false ∧ ¬ endDate < today ∧ progress = 0) := by
  unfold deriveStatus
  split_ifs with h1 h2 h3 h4 <;> simp_all
  all_goals omega

/-- C4: an unknown task id makes `recomputeAncestors` fail with NotFound,
and any failure happens before any write: the operation either returns a
fully recomputed store or reports the error with no partial state. -/
theorem recompute_notFound (today : Int) (s : Store) (i : Nat) :
    (findTask s i = none → recomputeAncestors today s i = .error .notFound) ∧
    (∀ e, recomputeAncestors today s i = .error e →
      findTask s i = none ∧ e = .notFound) := by
  constructor
  · intro h
    unfold recomputeAncestors
    rw [h]
  · intro e he
    unfold recomputeAncestors at he
    cases h : findTask s i with
    | none => exact ⟨rfl, by cases e; rfl⟩
    | some t => rw [h] at he; cases he

/-- Witness for C4 at a concrete input: the empty store has no task 5,
so the recomputation reports NotFound. -/
theorem recompute_notFound_witness :
    findTask ([] : Store) 5 = none ∧
    recomputeAncestors 0 ([] : Store) 5 = .error .notFound :=
  ⟨by decide, (recompute_notFound 0 ([] : Store) 5).1 (by decide)⟩

theorem setProg_self (t : Task) : setProg t.progress t.status t = t := rfl

theorem SkelEq.refl (t : Task) : SkelEq t t :=
  ⟨t.progress, t.status, (setProg_self t).symm⟩

theorem SkelEq.trans {a b c : Task} (h1 : SkelEq a b) (h2 : SkelEq b c) :
    SkelEq a c := by
  obtain ⟨p1, s1, rfl⟩ := h1
  obtain ⟨p2, s2, rfl⟩ := h2
  exact ⟨p2, s2, rfl⟩

theorem SkelEq.fields {t t' : Task} (h : SkelEq t t') :
    t'.task_id = t.task_id ∧ t'.parent_task_id = t.parent_task_id ∧
    t'.level = t.level ∧ t'.end_date = t.end_date ∧
    t'.risk_flagged = t.risk_flagged ∧
    t'.exclude_from_rollup = t.exclude_from_rollup ∧
    t'.duration = t.duration := by
  obtain ⟨pr, st, rfl⟩ := h
  exact ⟨rfl, rfl, rfl, rfl, rfl, rfl, rfl⟩

theorem findTask_eq_some {s : Store} {i : Nat} {t : Task}
    (h : findTask s i = some t) : t ∈ s ∧ t.task_id = i := by
  refine ⟨List.mem_of_find?_eq_some h, ?_⟩
  have := List.find?_some h
  simpa using this

theorem idInj {s : Store} (hn : (s.map (fun t => t.task_id)).Nodup)
    {a b : Task} (ha : a ∈ s) (hb : b ∈ s) (hid : a.task_id = b.task_id) :
    a = b :=
  List.inj_on_of_nodup_map hn ha hb hid

theorem findTask_of_mem {s : Store} (hn : (s.map (fun t => t.task_id)).Nodup)
    {t : Task} (ht : t ∈ s) : findTask s t.task_id = some t := by
  cases h : findTask s t.task_id with
  | none =>
      rw [findTask, List.find?_eq_none] at h
      exact absurd (by simp) (h t ht)
  | some q =>
      obtain ⟨hq, hqid⟩ := findTask_eq_some h
      rw [idInj hn hq ht hqid]

theorem unchangedOutside_refl (ids : List Nat) (s : Store) :
    UnchangedOutside ids s s := by
  induction s with
  | nil => exact List.Forall₂.nil
  | cons t rest ih => exact List.Forall₂.cons ⟨SkelEq.refl t, fun _ => rfl⟩ ih

theorem unchangedOutside_mono {ids ids' : List Nat} {s s' : Store}
    (hsub : ∀ i ∈ ids, i ∈ ids') (h : UnchangedOutside ids s s') :
    UnchangedOutside ids' s s' := by
  induction h with
  | nil => exact List.Forall₂.nil
  | cons hp _ ih =>
      exact List.Forall₂.cons
        ⟨hp.1, fun hni => hp.2 (fun hc => hni (hsub _ hc))⟩ ih

theorem unchangedOutside_comp {l1 l2 : List Nat} {s1 s2 s3 : Store}
    (h1 : UnchangedOutside l1 s1 s2) (h2 : UnchangedOutside l2 s2 s3) :
    UnchangedOutside (l1 ++ l2) s1 s3 := by
  induction h1 generalizing s3 with
  | nil => cases h2; exact List.Forall₂.nil
  | cons hp _ ih =>
      cases h2 with
      | cons hq hrest =>
          refine List.Forall₂.cons ⟨hp.1.trans hq.1, fun hni => ?_⟩ (ih hrest)
          rw [List.mem_append] at hni
          push_neg at hni
          have e1 := hp.2 hni.1
          have e2 := hq.2 (by rw [hp.1.fields.1, e1] at *; exact hni.2)
          rw [e2, e1]

theorem updateTask_unchangedOutside (s : Store) (i : Nat) (pr : Nat) (st : Status) :
    UnchangedOutside [i] s (updateTask s i pr st) := by
  induction s with
  | nil => exact List.Forall₂.nil
  | cons t rest ih =>
      refine List.Forall₂.cons ?_ ih
      by_cases h : t.task_id = i
      · refine ⟨?_, fun hni => absurd (by simp [h]) hni⟩
        show SkelEq t (if t.task_id == i then setProg pr st t else t)
        rw [if_pos (by simp [h])]
        exact ⟨pr, st, rfl⟩
      · constructor
        · show SkelEq t (if t.task_id == i then setProg pr st t else t)
          rw [if_neg (by simp [h])]
          exact SkelEq.refl t
        · intro _
          show (if t.task_id == i then setProg pr st t else t) = t
          rw [if_neg (by simp [h])]

theorem unchangedOutside_length {ids : List Nat} {s s' : Store}
    (h : UnchangedOutside ids s s') : s.length = s'.length :=
  h.length_eq

theorem unchangedOutside_map_id {ids : List Nat} {s s' : Store}
    (h : UnchangedOutside ids s s') :
    s'.map (fun t => t.task_id) = s.map (fun t => t.task_id) := by
  induction h with
  | nil => rfl
  | cons hp _ ih => simp [ih, hp.1.fields.1]

theorem findTask_unchangedOutside_notin {ids : List Nat} {s s' : Store}
    (h : UnchangedOutside ids s s') {i : Nat} (hi : i ∉ ids) :
    findTask s' i = findTask s i := by
  induction h with
  | nil => rfl
  | cons hp _ ih =>
      rename_i t t' l l' _
      rw [findTask, findTask, List.find?_cons, List.find?_cons]
      by_cases hid : t.task_id = i
      · have : t' = t := hp.2 (by rw [hid]; exact hi)
        simp [this, hid]
      · have hid' : t'.task_id ≠ i := by rw [hp.1.fields.1]; exact hid
        simp only [beq_eq_false_iff_ne.2 hid, beq_eq_false_iff_ne.2 hid']
        exact ih

theorem findTask_unchangedOutside_skel {ids : List Nat} {s s' : Store}
    (h : UnchangedOutside ids s s') (i : Nat) :
    (findTask s i = none → findTask s' i = none) ∧
    (∀ t, findTask s i = some t →
      ∃ t', findTask s' i = some t' ∧ SkelEq t t') := by
  induction h with
  | nil => exact ⟨fun _ => rfl, fun t ht => by cases ht⟩
  | cons hp _ ih =>
      rename_i t t' l l' _
      constructor
      · intro hn
        rw [findTask, List.find?_cons] at hn ⊢
        by_cases hid : t.task_id = i
        · simp [hid] at hn
        · have hid' : t'.task_id ≠ i := by rw [hp.1.fields.1]; exact hid
          simp only [beq_eq_false_iff_ne.2 hid] at hn
          simp only [beq_eq_false_iff_ne.2 hid']
          exact ih.1 hn
      · intro q hq
        rw [findTask, List.find?_cons] at hq ⊢
        by_cases hid : t.task_id = i
        · simp only [beq_iff_eq.2 hid] at hq
          have hid' : t'.task_id = i := by rw [hp.1.fields.1]; exact hid
          simp only [beq_iff_eq.2 hid']
          cases hq
          exact ⟨t', rfl, hp.1⟩
        · have hid' : t'.task_id ≠ i := by rw [hp.1.fields.1]; exact hid
          simp only [beq_eq_false_iff_ne.2 hid] at hq
          simp only [beq_eq_false_iff_ne.2 hid']
          exact ih.2 q hq

theorem childrenOf_unchangedOutside {ids : List Nat} {s s' : Store}
    (h : UnchangedOutside ids s s') {i : Nat}
    (hc : ∀ t ∈ s, t.parent_task_id = some i → t.task_id ∉ ids) :
    childrenOf s' i = childrenOf s i := by
  induction h with
  | nil => rfl
  | @cons t t' l l' hp hrest ih =>
      have hpar : t'.parent_task_id = t.parent_task_id := hp.1.fields.2.1
      have ihx := ih (fun u hu hum => hc u (List.mem_cons_of_mem _ hu) hum)
      simp only [childrenOf] at ihx ⊢
      rw [List.filter_cons, List.filter_cons]
      by_cases hm : t.parent_task_id = some i
      · have hte : t' = t := hp.2 (hc t (List.mem_cons_self _ _) hm)
        subst hte
        simp [hm, ihx]
      · have hm' : t'.parent_task_id ≠ some i := by rw [hpar]; exact hm
        simp [beq_eq_false_iff_ne.2 hm, beq_eq_false_iff_ne.2 hm', ihx]

theorem rollup_unchangedOutside {ids : List Nat} {s s' : Store}
    (h : UnchangedOutside ids s s') {i : Nat}
    (hc : ∀ t ∈ s, t.parent_task_id = some i → t.task_id ∉ ids) :
    rollupProgress s' i = rollupProgress s i := by
  have hch := childrenOf_unchangedOutside h hc
  rw [rollupProgress, rollupProgress, includedChildren, includedChildren,
    weightSum, weightSum, weightedSum, weightedSum,
    includedChildren, includedChildren, hch]

theorem unchangedOutside_mem_right {ids : List Nat} {s s' : Store}
    (h : UnchangedOutside ids s s') {t' : Task} (ht' : t' ∈ s') :
    ∃ t ∈ s, SkelEq t t' := by
  induction h with
  | nil => cases ht'
  | @cons a b l l' hp _ ih =>
      rcases List.mem_cons.1 ht' with rfl | hm
      · exact ⟨a, List.mem_cons_self _ _, hp.1⟩
      · obtain ⟨t, htm, hts⟩ := ih hm
        exact ⟨t, List.mem_cons_of_mem _ htm, hts⟩

theorem unchangedOutside_mem_left {ids : List Nat} {s s' : Store}
    (h : UnchangedOutside ids s s') {t : Task} (ht : t ∈ s) :
    ∃ t' ∈ s', SkelEq t t' := by
  induction h with
  | nil => cases ht
  | @cons a b l l' hp _ ih =>
      rcases List.mem_cons.1 ht with rfl | hm
      · exact ⟨b, List.mem_cons_self _ _, hp.1⟩
      · obtain ⟨t', htm, hts⟩ := ih hm
        exact ⟨t', List.mem_cons_of_mem _ htm, hts⟩

theorem wf_unchangedOutside {ids : List Nat} {s s' : Store}
    (h : UnchangedOutside ids s s') (hwf : WF s) : WF s' := by
  constructor
  · rw [unchangedOutside_map_id h]; exact hwf.1
  · intro t' ht' pid hpid
    obtain ⟨t, htm, hts⟩ := unchangedOutside_mem_right h ht'
    have hpar : t.parent_task_id = some pid := by
      rw [← hts.fields.2.1]; exact hpid
    obtain ⟨p, hpm, hpid', hplt⟩ := hwf.2 t htm pid hpar
    obtain ⟨p', hp'm, hp's⟩ := unchangedOutside_mem_left h hpm
    refine ⟨p', hp'm, ?_, ?_⟩
    · rw [hp's.fields.1]; exact hpid'
    · rw [hp's.fields.2.2.1, hts.fields.2.2.1]; exact hplt

theorem chain_levels {s : Store} (hwf : WF s) :
    ∀ {cur : Option Nat} {ids : List Nat}, UpChainL s cur ids →
      ∀ {p : Task}, p ∈ s → cur = p.parent_task_id →
      ∀ j ∈ ids, ∃ q, findTask s j = some q ∧ q.level < p.level := by
  intro cur ids h
  induction h with
  | nil => intro p _ _ j hj; cases hj
  | @cons pid q ids hfind hch ih =>
      intro p hp hcur j hj
      obtain ⟨hqmem, hqid⟩ := findTask_eq_some hfind
      obtain ⟨p', hp'mem, hp'id, hp'lt⟩ := hwf.2 p hp pid hcur.symm
      have hq_eq : q = p' := idInj hwf.1 hqmem hp'mem (by rw [hqid, hp'id])
      have hqlt : q.level < p.level := by rw [hq_eq]; exact hp'lt
      rcases List.mem_cons.1 hj with rfl | hj'
      · exact ⟨q, hfind, hqlt⟩
      · obtain ⟨r, hr, hrlt⟩ := ih hqmem rfl j hj'
        exact ⟨r, hr, lt_trans hrlt hqlt⟩

theorem chain_head_notin {s : Store} (hwf : WF s) {pid : Nat} {p : Task}
    {ids : List Nat} (hfind : findTask s pid = some p)
    (hch : UpChainL s p.parent_task_id ids) : pid ∉ ids := by
  intro hmem
  obtain ⟨q, hq, hlt⟩ :=
    chain_levels hwf hch (findTask_eq_some hfind).1 rfl pid hmem
  rw [hfind] at hq
  cases hq
  exact lt_irrefl _ hlt

theorem children_notin_chain {s : Store} (hwf : WF s) {pid : Nat} {p : Task}
    {ids : List Nat} (hfind : findTask s pid = some p)
    (hch : UpChainL s p.parent_task_id ids) :
    ∀ c ∈ s, c.parent_task_id = some pid → c.task_id ∉ pid :: ids := by
  intro c hc hcp hmem
  obtain ⟨hpmem, hpid⟩ := findTask_eq_some hfind
  obtain ⟨p', hp', hp'id, hp'lt⟩ := hwf.2 c hc pid hcp
  have hpp : p' = p := idInj hwf.1 hp' hpmem (by rw [hp'id, hpid])
  rw [hpp] at hp'lt
  rcases List.mem_cons.1 hmem with he | hmem'
  · have hcpe : c = p := idInj hwf.1 hc hpmem (by rw [he, hpid])
    rw [hcpe] at hp'lt
    exact lt_irrefl _ hp'lt
  · obtain ⟨q, hq, hqlt⟩ := chain_levels hwf hch hpmem rfl _ hmem'
    have hqc : q = c :=
      idInj hwf.1 (findTask_eq_some hq).1 hc (findTask_eq_some hq).2
    rw [hqc] at hqlt
    omega

theorem chain_nodup {s : Store} (hwf : WF s) :
    ∀ {cur : Option Nat} {ids : List Nat}, UpChainL s cur ids → ids.Nodup := by
  intro cur ids h
  induction h with
  | nil => exact List.nodup_nil
  | @cons pid p ids hfind hch ih =>
      exact List.nodup_cons.2 ⟨chain_head_notin hwf hfind hch, ih⟩

theorem chain_ids_sub {s : Store} :
    ∀ {cur : Option Nat} {ids : List Nat}, UpChainL s cur ids →
      ∀ j ∈ ids, ∃ q ∈ s, q.task_id = j := by
  intro cur ids h
  induction h with
  | nil => intro j hj; cases hj
  | @cons pid p ids hfind _ ih =>
      intro j hj
      rcases List.mem_cons.1 hj with rfl | hj'
      · exact ⟨p, (findTask_eq_some hfind).1, (findTask_eq_some hfind).2⟩
      · exact ih j hj'

theorem chain_length_le {s : Store} (hwf : WF s) {cur : Option Nat}
    {ids : List Nat} (h : UpChainL s cur ids) : ids.length ≤ s.length := by
  have hsub : ids ⊆ s.map (fun t => t.task_id) := by
    intro j hj
    obtain ⟨q, hq, hqid⟩ := chain_ids_sub h j hj
    exact List.mem_map.2 ⟨q, hq, hqid⟩
  have := ((chain_nodup hwf h).subperm hsub).length_le
  simpa using this

theorem upChain_unchangedOutside {ids0 : List Nat} {s s' : Store}
    (h : UnchangedOutside ids0 s s') :
    ∀ {cur : Option Nat} {ids : List Nat},
      UpChainL s cur ids → UpChainL s' cur ids := by
  intro cur ids hch
  induction hch with
  | nil => exact UpChainL.nil
  | @cons pid p ids hfind _ ih =>
      obtain ⟨p', hfind', hskel⟩ :=
        (findTask_unchangedOutside_skel h pid).2 p hfind
      have hpar : p'.parent_task_id = p.parent_task_id := hskel.fields.2.1
      exact UpChainL.cons hfind' (by rw [hpar]; exact ih)

theorem findTask_updateTask_self {s : Store} {pid : Nat} {p : Task}
    (h : findTask s pid = some p) (pr : Nat) (st : Status) :
    findTask (updateTask s pid pr st) pid = some (setProg pr st p) := by
  have hid : ∀ t : Task,
      ((if t.task_id == pid then setProg pr st t else t).task_id == pid) =
        (t.task_id == pid) := by
    intro t
    by_cases ht : t.task_id = pid <;> simp [ht, setProg]
  rw [updateTask, findTask, List.find?_map]
  have hfun : (fun t : Task => t.task_id == pid) ∘
      (fun t => if t.task_id == pid then setProg pr st t else t) =
      (fun t : Task => t.task_id == pid) := by
    funext t
    exact hid t
  rw [hfun]
  rw [findTask] at h
  rw [h]
  have hp : p.task_id = pid := by
    have := List.find?_some h
    simpa using this
  simp [hp]

theorem updateTask_noop {s : Store} {pid : Nat} {p : Task}
    (hn : (s.map (fun t => t.task_id)).Nodup)
    (hfind : findTask s pid = some p) :
    updateTask s pid p.progress p.status = s := by
  unfold updateTask
  refine (List.map_congr_left ?_).trans (List.map_id _)
  intro t ht
  by_cases hid : t.task_id = pid
  · have htp : t = p :=
      idInj hn ht (findTask_eq_some hfind).1
        (hid.trans (findTask_eq_some hfind).2.symm)
    subst htp
    simp [hid, setProg_self]
  · simp [hid]

theorem walkUp_none (today : Int) (s : Store) (fuel : Nat) :
    walkUp today s none fuel = s := by
  cases fuel <;> simp [walkUp]

theorem walkUp_spec (today : Int) :
    ∀ (ids : List Nat) (s : Store) (cur : Option Nat) (fuel : Nat),
      WF s → UpChainL s cur ids → ids.length ≤ fuel →
      UnchangedOutside ids s (walkUp today s cur fuel) ∧
      ∀ i ∈ ids, Consistent today (walkUp today s cur fuel) i := by
  intro ids
  induction ids with
  | nil =>
      intro s cur fuel hwf hch hlen
      cases hch
      rw [walkUp_none]
      exact ⟨unchangedOutside_refl [] s, fun i hi => absurd hi (List.not_mem_nil i)⟩
  | cons pid rest ih =>
      intro s cur fuel hwf hch hlen
      cases hch with
      | @cons _ p _ hfind hch' =>
        obtain ⟨f, rfl⟩ : ∃ f, fuel = f + 1 :=
          ⟨fuel - 1, by simp at hlen; omega⟩
        have hw : walkUp today s (some pid) (f + 1) =
            walkUp today
              (updateTask s pid (rollupProgress s pid)
                (deriveStatus today (rollupProgress s pid) p.end_date p.risk_flagged))
              p.parent_task_id f := by
          simp only [walkUp, hfind]
        have hUO1 : UnchangedOutside [pid] s
            (updateTask s pid (rollupProgress s pid)
              (deriveStatus today (rollupProgress s pid) p.end_date p.risk_flagged)) :=
          updateTask_unchangedOutside s pid _ _
        have hwf1 := wf_unchangedOutside hUO1 hwf
        have hch1 := upChain_unchangedOutside hUO1 hch'
        have hlen1 : rest.length ≤ f := by simp at hlen; omega
        obtain ⟨hUO2, hcons⟩ := ih _ p.parent_task_id f hwf1 hch1 hlen1
        have hUOall : UnchangedOutside (pid :: rest) s
            (walkUp today
              (updateTask s pid (rollupProgress s pid)
                (deriveStatus today (rollupProgress s pid) p.end_date p.risk_flagged))
              p.parent_task_id f) := by
          have := unchangedOutside_comp hUO1 hUO2
          simpa using this
        refine ⟨by rw [hw]; exact hUOall, ?_⟩
        intro i hi
        rw [hw]
        rcases List.mem_cons.1 hi with rfl | hi'
        · intro tfinal hfinal
          have hnotin : i ∉ rest := chain_head_notin hwf hfind hch'
          have hfeq := findTask_unchangedOutside_notin hUO2 hnotin
          rw [hfeq, findTask_updateTask_self hfind _ _] at hfinal
          cases hfinal
          have hchildren := children_notin_chain hwf hfind hch'
          have hroll := rollup_unchangedOutside hUOall hchildren
          constructor
          · show rollupProgress s i = _
            rw [hroll]
          · show deriveStatus today (rollupProgress s i) p.end_date p.risk_flagged = _
            rw [hroll]
            rfl
        · exact hcons i hi'

theorem walkUp_noop (today : Int) :
    ∀ (ids : List Nat) (s : Store) (cur : Option Nat) (fuel : Nat),
      WF s → UpChainL s cur ids → ids.length ≤ fuel →
      (∀ i ∈ ids, Consistent today s i) →
      walkUp today s cur fuel = s := by
  intro ids
  induction ids with
  | nil =>
      intro s cur fuel _ hch _ _
      cases hch
      exact walkUp_none today s fuel
  | cons pid rest ih =>
      intro s cur fuel hwf hch hlen hcons
      cases hch with
      | @cons _ p _ hfind hch' =>
        obtain ⟨f, rfl⟩ : ∃ f, fuel = f + 1 :=
          ⟨fuel - 1, by simp at hlen; omega⟩
        have hw : walkUp today s (some pid) (f + 1) =
            walkUp today
              (updateTask s pid (rollupProgress s pid)
                (deriveStatus today (rollupProgress s pid) p.end_date p.risk_flagged))
              p.parent_task_id f := by
          simp only [walkUp, hfind]
        have hcp := hcons pid (List.mem_cons_self _ _) p hfind
        have hprog : rollupProgress s pid = p.progress := hcp.1.symm
        have hstat : deriveStatus today (rollupProgress s pid) p.end_date p.risk_flagged
            = p.status := hcp.2.symm
        rw [hw, hstat, hprog, updateTask_noop hwf.1 hfind]
        exact ih s p.parent_task_id f hwf hch' (by simp at hlen; omega)
          (fun i hi => hcons i (List.mem_cons_of_mem _ hi))

theorem upChain_exists_aux {s : Store} (hwf : WF s) :
    ∀ (L : Nat) (cur : Option Nat),
      (cur = none ∨ ∃ pid p, cur = some pid ∧ findTask s pid = some p ∧ p.level < L) →
      ∃ ids, UpChainL s cur ids := by
  intro L
  induction L with
  | zero =>
      intro cur hc
      rcases hc with rfl | ⟨pid, p, rfl, _, hlt⟩
      · exact ⟨[], UpChainL.nil⟩
      · omega
  | succ L ih =>
      intro cur hc
      rcases hc with rfl | ⟨pid, p, rfl, hfind, hlt⟩
      · exact ⟨[], UpChainL.nil⟩
      · have hnext : p.parent_task_id = none ∨
            ∃ gpid g, p.parent_task_id = some gpid ∧
              findTask s gpid = some g ∧ g.level < L := by
          cases hpp : p.parent_task_id with
          | none => exact Or.inl rfl
          | some gpid =>
              obtain ⟨g, hg, hgid, hglt⟩ :=
                hwf.2 p (findTask_eq_some hfind).1 gpid hpp
              have hfg : findTask s gpid = some g := by
                rw [← hgid]; exact findTask_of_mem hwf.1 hg
              exact Or.inr ⟨gpid, g, rfl, hfg, by omega⟩
        obtain ⟨ids, hids⟩ := ih p.parent_task_id hnext
        exact ⟨pid :: ids, UpChainL.cons hfind hids⟩

theorem upChain_exists {s : Store} (hwf : WF s) {i : Nat} {t : Task}
    (hfind : findTask s i = some t) :
    ∃ ids, UpChainL s t.parent_task_id ids := by
  cases hpp : t.parent_task_id with
  | none => exact ⟨[], UpChainL.nil⟩
  | some pid =>
      obtain ⟨g, hg, hgid, hglt⟩ := hwf.2 t (findTask_eq_some hfind).1 pid hpp
      have hfg : findTask s pid = some g := by
        rw [← hgid]; exact findTask_of_mem hwf.1 hg
      exact upChain_exists_aux hwf t.level (some pid)
        (Or.inr ⟨pid, g, rfl, hfg, hglt⟩)

/-- C1: for every ancestor recomputed by `recomputeAncestors`, the
resulting progress is Σ(child.progress × child.duration) / Σ(child.duration)
over the non-excluded children; when every child is excluded it is the
unweighted average of the children's progress, and 0 with no children at
all; and in particular the concrete parent with children of durations
[10, 20] and progresses [50, 100] ends at progress 83 under the fixed
floor rounding. -/
theorem rollup_weighted_average (today : Int) (s s' : Store) (i : Nat)
    (t : Task) (ids : List Nat)
    (hwf : WF s) (ht : findTask s i = some t)
    (hch : UpChainL s t.parent_task_id ids)
    (hok : recomputeAncestors today s i = .ok s') :
    (∀ a ∈ ids, RollupSpecAt s' a) ∧
    (recomputeAncestors 0 exStore 2 = .ok exStoreAfter ∧
      findTask exStoreAfter 1 = some exParentAfter ∧
      exParentAfter.progress = 83 ∧
      exChild1.duration = 10 ∧ exChild2.duration = 20 ∧
      exChild1.progress = 50 ∧ exChild2.progress = 100 ∧
      exChild1.exclude_from_rollup = false ∧ exChild2.exclude_from_rollup = false) := by
  constructor
  · unfold recomputeAncestors at hok
    rw [ht] at hok
    injection hok with hok'
    subst hok'
    have hlen := chain_length_le hwf hch
    obtain ⟨_, hcons⟩ := walkUp_spec today ids s t.parent_task_id s.length hwf hch hlen
    intro a ha ta hta
    have hc := hcons a ha ta hta
    refine ⟨?_, ?_, ?_⟩
    · intro hinc
      rw [hc.1, rollupProgress, if_pos hinc]
    · intro hinc hchn
      rw [hc.1, rollupProgress, if_neg (by simp [hinc]), if_pos hchn]
    · intro hchn
      have hinc : includedChildren (walkUp today s t.parent_task_id s.length) a = [] := by
        rw [includedChildren, hchn]
        rfl
      rw [hc.1, rollupProgress, if_neg (by simp [hinc]), if_neg (by simp [hchn])]
  · exact ⟨by rfl, by decide, by decide, by decide, by decide, by decide,
      by decide, by decide, by decide⟩

/-- Witness for C1 at a concrete input: the example store, updating
child 2, with the single-ancestor chain [1]; the parent ends at 83. -/
theorem rollup_weighted_average_witness :
    (WF exStore ∧ findTask exStore 2 = some exChild1 ∧
      UpChainL exStore exChild1.parent_task_id [1] ∧
      recomputeAncestors 0 exStore 2 = .ok exStoreAfter) ∧
    ((∀ a ∈ [1], RollupSpecAt exStoreAfter a) ∧
      (recomputeAncestors 0 exStore 2 = .ok exStoreAfter ∧
        findTask exStoreAfter 1 = some exParentAfter ∧
        exParentAfter.progress = 83 ∧
        exChild1.duration = 10 ∧ exChild2.duration = 20 ∧
        exChild1.progress = 50 ∧ exChild2.progress = 100 ∧
        exChild1.exclude_from_rollup = false ∧ exChild2.exclude_from_rollup = false)) :=
  ⟨⟨by decide, by decide,
      UpChainL.cons (show findTask exStore 1 = some exParent by decide) UpChainL.nil,
      by rfl⟩,
    rollup_weighted_average 0 exStore exStoreAfter 2 exChild1 [1]
      (by decide) (by decide)
      (UpChainL.cons (show findTask exStore 1 = some exParent by decide) UpChainL.nil)
      (by rfl)⟩

/-- C3: `recomputeAncestors` is idempotent — running it again on the
store it produced, with the same task id and no intervening change,
returns exactly the same store (so every task's progress and status are
identical to the first result). -/
theorem rollup_idempotent (today : Int) (s s' : Store) (i : Nat)
    (hwf : WF s) (hok : recomputeAncestors today s i = .ok s') :
    recomputeAncestors today s' i = .ok s' := by
  unfold recomputeAncestors at hok
  cases ht : findTask s i with
  | none => rw [ht] at hok; cases hok
  | some t =>
      rw [ht] at hok
      injection hok with hok'
      obtain ⟨ids, hch⟩ := upChain_exists hwf ht
      have hlen := chain_length_le hwf hch
      obtain ⟨hUO, hcons⟩ := walkUp_spec today ids s t.parent_task_id s.length hwf hch hlen
      rw [hok'] at hUO hcons
      have hinotin : i ∉ ids := by
        intro hmem
        obtain ⟨q, hq, hlt⟩ :=
          chain_levels hwf hch (findTask_eq_some ht).1 rfl i hmem
        rw [ht] at hq
        cases hq
        exact lt_irrefl _ hlt
      have hfind' : findTask s' i = some t := by
        rw [findTask_unchangedOutside_notin hUO hinotin]
        exact ht
      have hch' : UpChainL s' t.parent_task_id ids := upChain_unchangedOutside hUO hch
      have hwf' : WF s' := wf_unchangedOutside hUO hwf
      have hlen' : ids.length ≤ s'.length := by
        rw [← unchangedOutside_length hUO]
        exact hlen
      unfold recomputeAncestors
      rw [hfind']
      show Except.ok (walkUp today s' t.parent_task_id s'.length) = Except.ok s'
      rw [walkUp_noop today ids s' t.parent_task_id s'.length hwf' hch' hlen' hcons]

/-- Witness for C3 at a concrete input: recomputing the already
recomputed example store is the identity. -/
theorem rollup_idempotent_witness :
    (WF exStore ∧ recomputeAncestors 0 exStore 2 = .ok exStoreAfter) ∧
    recomputeAncestors 0 exStoreAfter 2 = .ok exStoreAfter :=
  ⟨⟨by decide, by rfl⟩,
    rollup_idempotent 0 exStore exStoreAfter 2 (by decide) (by rfl)⟩

theorem logWF_empty : LogWF emptyLog :=
  ⟨fun e he => absurd he (List.not_mem_nil e), List.Pairwise.nil⟩

theorem logWF_record {log : HistoryLog} (h : LogWF log) (tid : Nat)
    (a : HAction) (ov nv : String) (notes : Option String) :
    LogWF (record log tid a ov nv notes) := by
  constructor
  · intro e he
    rcases List.mem_append.1 he with h1 | h2
    · exact Nat.lt_trans (h.1 e h1) (Nat.lt_succ_self _)
    · simp at h2
      subst h2
      simp [record]
  · refine List.pairwise_append.2 ⟨h.2, List.pairwise_singleton _ _, ?_⟩
    intro x hx y hy
    simp at hy
    subst hy
    exact h.1 x hx

theorem logWF_applyOps (ops : List RecordOp) :
    ∀ (log : HistoryLog), LogWF log → LogWF (applyOps log ops) := by
  induction ops with
  | nil => intro log h; exact h
  | cons op rest ih =>
      intro log h
      exact ih _ (logWF_record h _ _ _ _ _)

theorem applyOps_filter_length (tid : Nat) (ops : List RecordOp) :
    ∀ (log : HistoryLog),
      ((applyOps log ops).entries.filter (fun e => e.task_id == tid)).length =
        (log.entries.filter (fun e => e.task_id == tid)).length +
          (ops.filter (fun o => o.tid == tid)).length := by
  induction ops with
  | nil => intro log; simp [applyOps]
  | cons op rest ih =>
      intro log
      rw [applyOps, ih]
      simp only [record, List.filter_append, List.length_append,
        List.filter_cons]
      by_cases h : op.tid = tid <;> simp [h]
      all_goals omega

/-- C5: the history log is append-only and ordered — after a sequence of
updates, `listFor` returns exactly the task's updates newest-first,
previously listed entries are never changed by a further `record`, and
`listRecent(limit)` returns the most recent entries system-wide,
newest-first, annotated with the owning task's display name. -/
theorem history_append_only (ops : List RecordOp) (tid limit : Nat)
    (tasks : List Task) (op : RecordOp) : HistorySpec ops tid limit tasks op := by
  have hwf := logWF_applyOps ops emptyLog logWF_empty
  have hdesc : ((applyOps emptyLog ops).entries.reverse).Pairwise
      (fun a b => b.timestamp < a.timestamp) :=
    List.pairwise_reverse.2 hwf.2
  refine ⟨?_, ?_, ?_, ?_, ?_, ?_, ?_⟩
  · simp only [listFor, List.length_reverse]
    rw [applyOps_filter_length tid ops emptyLog]
    simp [emptyLog]
  · simp only [listFor]
    exact List.pairwise_reverse.2 (hwf.2.filter _)
  · simp only [listFor, record, List.filter_append, List.reverse_append]
    by_cases h : op.tid = tid <;> simp [h]
  · exact hdesc.take
  · simp [listRecent]
  · intro e he e' he' hne
    have hr := List.take_append_drop limit ((applyOps emptyLog ops).entries.reverse)
    have hsplit : ((applyOps emptyLog ops).entries.reverse.take limit ++
        (applyOps emptyLog ops).entries.reverse.drop limit).Pairwise
        (fun a b => b.timestamp < a.timestamp) := by
      rw [hr]; exact hdesc
    have he'r : e' ∈ (applyOps emptyLog ops).entries.reverse :=
      List.mem_reverse.2 he'
    have he'dr : e' ∈ (applyOps emptyLog ops).entries.reverse.drop limit := by
      rw [← hr] at he'r
      rcases List.mem_append.1 he'r with h1 | h2
      · exact absurd h1 hne
      · exact h2
    exact (List.pairwise_append.1 hsplit).2.2 e he e' he'dr
  · intro x hx
    obtain ⟨e, _, rfl⟩ := List.mem_map.1 hx
    rfl

/-- Witness for C5 at a concrete input: three updates (two to task 7,
one to task 8), then one more record to task 7. -/
theorem history_append_only_witness :
    HistorySpec
      [⟨7, .progress_update, "40", "70", some "site visit"⟩,
        ⟨8, .risk_change, "false", "true", none⟩,
        ⟨7, .progress_update, "70", "80", none⟩]
      7 10 exStore ⟨7, .progress_update, "80", "90", none⟩ :=
  history_append_only _ 7 10 exStore _

/-- C7: a task is included in the generated report iff its phase matches
the phase filter (or the filter is all), its status matches the status
filter (or the filter is all), and — when a date range is given — the
interval [start_date, end_date] of the task overlaps the requested
range. -/
theorem report_filter_mem (ts : List Task) (pf : Option Phase)
    (sf : Option Status) (dr : Option (Int × Int)) (t : Task) :
    ReportSpec ts pf sf dr t := by
  unfold ReportSpec reportTasks
  simp only [List.mem_filter]
  rcases pf with _ | p <;> rcases sf with _ | st <;> rcases dr with _ | ⟨a, b⟩ <;>
    simp [and_assoc]

/-- Witness for C7 at a concrete input: the example store with a phase
filter, no status filter and the range [0, 15]. -/
theorem report_filter_mem_witness :
    ReportSpec exStore (some .pre_construction) none (some (0, 15)) exChild1 :=
  report_filter_mem exStore (some .pre_construction) none (some (0, 15)) exChild1

theorem mem_fabLeafTasks {ts : List Task} {t : Task} :
    t ∈ fabLeafTasks ts ↔
      t ∈ ts ∧ t.is_leaf = true ∧ t.exclude_from_rollup = false := by
  cases hx : t.exclude_from_rollup <;> cases hl : t.is_leaf <;>
    simp [fabLeafTasks, List.mem_filter, hx, hl]

theorem mem_quickLeafTasks {ts : List Task} {t : Task} :
    t ∈ quickLeafTasks ts ↔
      t ∈ ts ∧ t.is_leaf = true ∧ t.exclude_from_rollup = false := by
  cases hx : t.exclude_from_rollup <;> cases hl : t.is_leaf <;>
    simp [quickLeafTasks, List.mem_filter, hx, hl]

/-- C10: in every quick-update interface the offered tasks are exactly
the non-excluded leaf tasks — an excluded leaf can never be selected
through these interfaces, their search/phase filters only narrow that
set, and the task tree renders an editable progress control exactly for
leaf tasks (never for non-leaf tasks). -/
theorem quick_update_leaf_only (ts : List Task) (query : String)
    (phase : Option Phase) (search : String) (t : Task) (editing : Bool) :
    QuickUpdateSpec ts query phase search t editing := by
  refine ⟨mem_fabLeafTasks, mem_quickLeafTasks, ?_, ?_, ?_⟩
  · intro h
    have hq : t ∈ fabLeafTasks ts := by
      unfold fabFilteredTasks at h
      split_ifs at h
      · exact List.take_subset _ _ h
      · exact (List.mem_filter.1 (List.take_subset _ _ h)).1
    exact (mem_fabLeafTasks.1 hq).2
  · intro h
    have hq : t ∈ quickLeafTasks ts := by
      unfold quickFilteredTasks at h
      rcases phase with _ | p <;> simp only at h <;> split_ifs at h
      · exact h
      · exact (List.mem_filter.1 h).1
      · exact (List.mem_filter.1 h).1
      · exact (List.mem_filter.1 (List.mem_filter.1 h).1).1
    exact (mem_quickLeafTasks.1 hq).2
  · cases hl : t.is_leaf <;> cases editing <;>
      simp [taskRowProgressCell, hl]

/-- Witness for C10 at a concrete input: the example store with empty
search on both interfaces. -/
theorem quick_update_leaf_only_witness :
    QuickUpdateSpec exStore "" none "" exChild1 false :=
  quick_update_leaf_only exStore "" none "" exChild1 false

theorem digitChar_ne_dash (k : Nat) : (digitChar k == '-') = false := by
  unfold digitChar
  split <;> decide

theorem digitChar_bne_dash (k : Nat) : (digitChar k != '-') = true := by
  simp [bne, digitChar_ne_dash]

theorem digitChar_isDigit (k : Nat) : (digitChar k).isDigit = true := by
  unfold digitChar
  split <;> decide

theorem removeDashes_append (a b : String) :
    removeDashes (a ++ b) = removeDashes a ++ removeDashes b := by
  cases a
  cases b
  exact congrArg String.mk (List.filter_append _ _)

theorem removeDashes_pad2 (n : Nat) : removeDashes (pad2 n) = pad2 n := by
  unfold removeDashes pad2
  exact congrArg String.mk (by simp [List.filter_cons, digitChar_bne_dash])

theorem removeDashes_pad4 (n : Nat) : removeDashes (pad4 n) = pad4 n := by
  unfold removeDashes pad4
  exact congrArg String.mk (by simp [List.filter_cons, digitChar_bne_dash])

theorem removeDashes_dash : removeDashes "-" = "" := by decide

/-- C8: the suggested report filename follows
`IIMC[_<reportType>]_Report_<YYYYMMDD>.<xlsx|pdf>` — the prefix is the
project prefix, the report-type segment is present exactly for non-full
reports, the date collapses to eight decimal digits, and the extension
is xlsx for the workbook format and pdf for the printable format. -/
theorem filename_convention (rt : ReportType) (fmt : OutFormat) (d : JSDate) :
    FilenameSpec rt fmt d := by
  refine ⟨?_, ?_, ?_, ?_, ?_, ?_⟩
  · unfold suggestedFilename formatDate
    rw [removeDashes_append, removeDashes_append, removeDashes_append,
      removeDashes_append, removeDashes_pad4, removeDashes_pad2,
      removeDashes_pad2, removeDashes_dash]
    unfold yyyymmdd
    simp [String.append_assoc]
  · rfl
  · intro c hc
    have hdata : (yyyymmdd d).data =
        [digitChar (d.year.toNat / 1000), digitChar (d.year.toNat / 100),
          digitChar (d.year.toNat / 10), digitChar d.year.toNat,
          digitChar ((d.month + 1).toNat / 10), digitChar (d.month + 1).toNat,
          digitChar (d.day.toNat / 10), digitChar d.day.toNat] := rfl
    rw [hdata] at hc
    simp only [List.mem_cons, List.not_mem_nil, or_false] at hc
    rcases hc with rfl | rfl | rfl | rfl | rfl | rfl | rfl | rfl <;>
      exact digitChar_isDigit _
  · cases rt <;> decide
  · cases fmt <;> decide
  · cases fmt <;> decide

theorem daysInMonth_bounds (y m : Int) :
    28 ≤ daysInMonth y m ∧ daysInMonth y m ≤ 31 := by
  unfold daysInMonth
  split_ifs <;> omega

theorem daysInMonth_eleven (y : Int) : daysInMonth y 11 = 31 := by
  norm_num [daysInMonth]

theorem daysInMonth_zero (y : Int) : daysInMonth y 0 = 31 := by
  norm_num [daysInMonth]

theorem leapCount_step (z : Int) :
    leapCount (z + 1) = leapCount z + (if isLeap z then 1 else 0) := by
  unfold leapCount isLeap
  have h1 : z + 1 - 1 = z := by ring
  rw [h1]
  split_ifs with h
  · simp only [Bool.or_eq_true, Bool.and_eq_true, beq_iff_eq, bne_iff_ne] at h
    omega
  · simp only [Bool.or_eq_true, Bool.and_eq_true, beq_iff_eq, bne_iff_ne] at h
    push_neg at h
    omega

theorem dBM_succ (y m : Int) (h1 : 0 ≤ m) (h2 : m ≤ 10) :
    daysBeforeMonth y (m + 1) = daysBeforeMonth y m + daysInMonth y m := by
  interval_cases m
  all_goals norm_num [daysBeforeMonth, daysInMonth]
  all_goals (split_ifs <;> omega)

theorem daysFromYear_succ (y : Int) :
    daysFromYear (y + 1) = daysFromYear y + 365 + (if isLeap y then 1 else 0) := by
  unfold daysFromYear
  rw [leapCount_step]
  ring

theorem toDays_jsSetDate (d : JSDate) (n : Int) (hv : ValidDate d) :
    toDays (jsSetDate d n) = toDays d - d.day + n := by
  obtain ⟨hm0, hm11, hd1, hdm⟩ := hv
  unfold jsSetDate
  split_ifs with h1 h2 h3 h4
  · -- borrow into December of the previous year
    unfold toDays
    dsimp only
    have hstep := daysFromYear_succ (d.year - 1)
    have hy : d.year - 1 + 1 = d.year := by ring
    rw [hy] at hstep
    rw [h2]
    have hb11 : daysBeforeMonth (d.year - 1) 11 =
        334 + (if isLeap (d.year - 1) then 1 else 0) := by
      norm_num [daysBeforeMonth]
    have hb0 : daysBeforeMonth d.year 0 = 0 := by
      norm_num [daysBeforeMonth]
    rw [hb11, hb0, hstep]
    split_ifs <;> ring
  · -- borrow into the previous month of the same year
    unfold toDays
    dsimp only
    have hstep := dBM_succ d.year (d.month - 1) (by omega) (by omega)
    have hm : d.month - 1 + 1 = d.month := by ring
    rw [hm] at hstep
    linarith [hstep]
  · -- plain day replacement
    unfold toDays
    dsimp only
    ring
  · -- carry into January of the next year
    unfold toDays
    dsimp only
    have hstep := daysFromYear_succ d.year
    rw [h4]
    have hb11 : daysBeforeMonth d.year 11 =
        334 + (if isLeap d.year then 1 else 0) := by
      norm_num [daysBeforeMonth]
    have hb0 : daysBeforeMonth (d.year + 1) 0 = 0 := by
      norm_num [daysBeforeMonth]
    rw [hb11, hb0, hstep]
    split_ifs <;> ring
  · -- carry into the next month of the same year
    unfold toDays
    dsimp only
    have hstep := dBM_succ d.year d.month (by omega) (by omega)
    linarith [hstep]

theorem jsSetDate_valid (d : JSDate) (n : Int) (hv : ValidDate d)
    (hlo : -27 ≤ n) (hhi : n ≤ daysInMonth d.year d.month + 28) :
    ValidDate (jsSetDate d n) := by
  obtain ⟨hm0, hm11, hd1, hdm⟩ := hv
  unfold jsSetDate ValidDate
  split_ifs with h1 h2 h3 h4 <;> dsimp only
  · rw [daysInMonth_eleven]
    omega
  · have hb := daysInMonth_bounds d.year (d.month - 1)
    omega
  · omega
  · rw [daysInMonth_zero]
    have h11 := daysInMonth_eleven d.year
    rw [h4] at h3 hhi
    omega
  · have hb1 := daysInMonth_bounds d.year d.month
    have hb2 := daysInMonth_bounds d.year (d.month + 1)
    omega

theorem jsNewDate_one (y m : Int) (h0 : 0 ≤ m) (h1 : m ≤ 11) :
    jsNewDate y m 1 = ⟨y, m, 1⟩ := by
  have hb := daysInMonth_bounds y m
  unfold jsNewDate
  have hdiv : m / 12 = 0 := by omega
  have hmod : m % 12 = m := by omega
  rw [hdiv, hmod, add_zero]
  unfold jsSetDate
  dsimp only
  rw [if_neg (by omega : ¬ (1 : Int) < 1),
    if_pos (by omega : (1 : Int) ≤ daysInMonth y m)]

theorem jsNewDate_zero (y m : Int) (h0 : 0 ≤ m) (h1 : m ≤ 11) :
    jsNewDate y (m + 1) 0 = ⟨y, m, daysInMonth y m⟩ := by
  unfold jsNewDate
  by_cases hm : m = 11
  · subst hm
    have hdiv : (11 + 1 : Int) / 12 = 1 := by norm_num
    have hmod : (11 + 1 : Int) % 12 = 0 := by norm_num
    rw [hdiv, hmod]
    unfold jsSetDate
    dsimp only
    rw [if_pos (by omega : (0 : Int) < 1), if_pos (rfl : (0 : Int) = 0),
      daysInMonth_eleven]
    simp only [JSDate.mk.injEq]
    norm_num
  · have hdiv : (m + 1) / 12 = 0 := by omega
    have hmod : (m + 1) % 12 = m + 1 := by omega
    rw [hdiv, hmod, add_zero]
    unfold jsSetDate
    dsimp only
    rw [if_pos (by omega : (0 : Int) < 1), if_neg (by omega : ¬ m + 1 = 0)]
    simp only [JSDate.mk.injEq]
    norm_num

/-- C6: the canonical date range of each report kind — daily is today
only; weekly is the calendar week starting Sunday that contains today
(the start is a Sunday, the end is six days later, today lies inside);
monthly is the first through last day of today's month; the full kind
applies no date range. -/
theorem date_range_rules (today : JSDate) (hv : ValidDate today) :
    DateRangeSpec today := by
  obtain ⟨hm0, hm11, hd1, hdm⟩ := hv
  have hvv : ValidDate today := ⟨hm0, hm11, hd1, hdm⟩
  have hg : 0 ≤ jsGetDay today ∧ jsGetDay today ≤ 6 := by
    unfold jsGetDay
    omega
  refine ⟨rfl, ?_, ?_, ?_, rfl⟩
  · intro ws we heq
    simp only [getDateRange, Option.some_inj, Prod.mk.injEq] at heq
    obtain ⟨hws, hwe⟩ := heq
    rw [hws] at hwe
    have hlo1 : -27 ≤ today.day - jsGetDay today := by omega
    have hhi1 : today.day - jsGetDay today ≤ daysInMonth today.year today.month + 28 := by
      omega
    have hwsd : toDays ws = toDays today - jsGetDay today := by
      rw [← hws, toDays_jsSetDate today _ hvv]
      ring
    have hwsv : ValidDate ws := by
      rw [← hws]
      exact jsSetDate_valid today _ hvv hlo1 hhi1
    obtain ⟨hwm0, hwm11, hwd1, hwdm⟩ := hwsv
    have hlo2 : -27 ≤ ws.day + 6 := by omega
    have hhi2 : ws.day + 6 ≤ daysInMonth ws.year ws.month + 28 := by omega
    have hwev : ValidDate we := by
      rw [← hwe]
      exact jsSetDate_valid ws _ ⟨hwm0, hwm11, hwd1, hwdm⟩ hlo2 hhi2
    have hwed : toDays we = toDays ws + 6 := by
      rw [← hwe, toDays_jsSetDate ws _ ⟨hwm0, hwm11, hwd1, hwdm⟩]
      ring
    refine ⟨?_, ⟨hwm0, hwm11, hwd1, hwdm⟩, hwev, hwed, ?_, ?_⟩
    · unfold jsGetDay
      rw [hwsd]
      unfold jsGetDay
      omega
    · rw [hwsd]; omega
    · rw [hwed, hwsd]; omega
  · simp only [getDateRange]
    rw [jsNewDate_one today.year today.month hm0 hm11,
      jsNewDate_zero today.year today.month hm0 hm11]
  · intro ms me heq
    simp only [getDateRange, Option.some_inj, Prod.mk.injEq] at heq
    obtain ⟨hms, hme⟩ := heq
    rw [← hms, ← hme, jsNewDate_one today.year today.month hm0 hm11,
      jsNewDate_zero today.year today.month hm0 hm11]
    unfold toDays
    dsimp only
    omega

/-- Witness for C6 at a concrete date (2026-10-11, month 9 0-based). -/
theorem date_range_rules_witness :
    ValidDate ⟨2026, 9, 11⟩ ∧ DateRangeSpec ⟨2026, 9, 11⟩ :=
  ⟨by decide, date_range_rules ⟨2026, 9, 11⟩ (by decide)⟩

/-- Counterexample to C9 as stated: on the duplicate-id input
[cexA, cexB] both records are roots (hence reachable), yet the built
forest misses cexA entirely and holds cexB twice, because the id map's
last-wins overwrite replaces the first record's node. -/
theorem buildTree_dup_id_counterexample :
    cexA ∈ [cexA, cexB] ∧ cexA.parent_task_id = none ∧
    (flatForest (buildTree [cexA, cexB])).count cexA = 0 ∧
    (flatForest (buildTree [cexA, cexB])).count cexB = 2 := by
  decide

theorem chainTo_mem_last {ts : List Task} {c : List Task} {t : Task}
    (h : ChainTo ts c t) : t ∈ c := by
  induction h with
  | root hm hp => simp
  | step hc hm hp ih => simp

theorem chainTo_subset {ts : List Task} {c : List Task} {t : Task}
    (h : ChainTo ts c t) : ∀ x ∈ c, x ∈ ts := by
  induction h with
  | root hm hp => intro x hx; simp at hx; subst hx; exact hm
  | step hc hm hp ih =>
      intro x hx
      rcases List.mem_append.1 hx with hx1 | hx2
      · exact ih x hx1
      · simp at hx2; subst hx2; exact hm

theorem chainTo_unique {ts : List Task}
    (hn : (ts.map (fun t => t.task_id)).Nodup) :
    ∀ {c c' : List Task} {t : Task}, ChainTo ts c t → ChainTo ts c' t → c = c' := by
  intro c c' t h1
  induction h1 generalizing c' with
  | root hm hp =>
      intro h2
      cases h2 with
      | root => rfl
      | step hc' hm' hp' => simp [hp] at hp'
  | @step c u t hc hm hp ih =>
      intro h2
      cases h2 with
      | root hm' hp' => simp [hp'] at hp
      | @step c₂ u₂ _ hc₂ hm₂ hp₂ =>
          have hid : u.task_id = u₂.task_id := by
            rw [hp] at hp₂
            injection hp₂
          have hu : u = u₂ :=
            idInj hn (chainTo_subset hc _ (chainTo_mem_last hc))
              (chainTo_subset hc₂ _ (chainTo_mem_last hc₂)) hid
          rw [← hu] at hc₂
          rw [ih hc₂]

theorem chainTo_prefix {ts : List Task} {c : List Task} {t : Task}
    (h : ChainTo ts c t) :
    ∀ x ∈ c, ∃ c₁ c₂, c = c₁ ++ c₂ ∧ ChainTo ts c₁ x := by
  induction h with
  | root hm hp =>
      intro x hx
      simp at hx
      subst hx
      exact ⟨[x], [], rfl, ChainTo.root hm hp⟩
  | @step c u t hc hm hp ih =>
      intro x hx
      rcases List.mem_append.1 hx with hx1 | hx2
      · obtain ⟨c₁, c₂, rfl, hcx⟩ := ih x hx1
        exact ⟨c₁, c₂ ++ [t], by simp, hcx⟩
      · simp at hx2
        subst hx2
        exact ⟨c ++ [x], [], by simp, ChainTo.step hc hm hp⟩

theorem chainTo_child_notin {ts : List Task}
    (hn : (ts.map (fun t => t.task_id)).Nodup)
    {c : List Task} {u t : Task} (hc : ChainTo ts c u)
    (hm : t ∈ ts) (hp : t.parent_task_id = some u.task_id) : t ∉ c := by
  intro hmem
  obtain ⟨c₁, c₂, heq, hc₁⟩ := chainTo_prefix hc t hmem
  have h2 : ChainTo ts (c ++ [t]) t := ChainTo.step hc hm hp
  have heq2 := chainTo_unique hn hc₁ h2
  have hl1 : c.length = c₁.length + c₂.length := by rw [heq]; simp
  have hl2 : c₁.length = c.length + 1 := by rw [heq2]; simp
  omega

theorem chainTo_nodup {ts : List Task}
    (hn : (ts.map (fun t => t.task_id)).Nodup)
    {c : List Task} {t : Task} (h : ChainTo ts c t) : c.Nodup := by
  induction h with
  | root hm hp => simp
  | @step c u t hc hm hp ih =>
      rw [List.nodup_append]
      refine ⟨ih, by simp, ?_⟩
      intro a ha hat
      simp at hat
      subst hat
      exact chainTo_child_notin hn hc hm hp ha

theorem chainTo_length_le {ts : List Task}
    (hn : (ts.map (fun t => t.task_id)).Nodup)
    {c : List Task} {t : Task} (h : ChainTo ts c t) : c.length ≤ ts.length :=
  ((chainTo_nodup hn h).subperm (fun x hx => chainTo_subset h x hx)).length_le

theorem chainFrom_append {ts : List Task} {u v t : Task} {d : List Task}
    (h : ChainFrom ts u d v) (hm : t ∈ ts)
    (hp : t.parent_task_id = some v.task_id) :
    ChainFrom ts u (d ++ [t]) t := by
  induction h with
  | refl w => exact ChainFrom.step hm hp (ChainFrom.refl t)
  | step hw hpw hcf ih => exact ChainFrom.step hw hpw (ih hp)

theorem chainTo_compose {ts : List Task} {u x : Task} {d : List Task}
    (h2 : ChainFrom ts u d x) :
    ∀ {c : List Task}, ChainTo ts c u → ChainTo ts (c ++ d) x := by
  induction h2 with
  | refl u =>
      intro c h1
      simpa using h1
  | @step u w x d hw hpw hcf ih =>
      intro c h1
      have h3 : ChainTo ts (c ++ [w]) w := ChainTo.step h1 hw hpw
      simpa using ih h3

theorem reachable_iff_chainTo {ts : List Task} {t : Task} :
    Reachable ts t ↔ ∃ c, ChainTo ts c t := by
  constructor
  · intro h
    induction h with
    | root hm hp => exact ⟨_, ChainTo.root hm hp⟩
    | child hr hm hp ih =>
        obtain ⟨c, hc⟩ := ih
        exact ⟨c ++ [_], ChainTo.step hc hm hp⟩
  · rintro ⟨c, hc⟩
    induction hc with
    | root hm hp => exact Reachable.root hm hp
    | step hc hm hp ih => exact Reachable.child ih hm hp

theorem chainTo_decompose {ts : List Task} {c : List Task} {x : Task}
    (h : ChainTo ts c x) :
    ∃ r d, c = r :: d ∧ r ∈ ts ∧ r.parent_task_id = none ∧
      ChainFrom ts r d x := by
  induction h with
  | root hm hp => exact ⟨_, [], rfl, hm, hp, ChainFrom.refl _⟩
  | @step c u t hc hm hp ih =>
      obtain ⟨r, d, rfl, hrm, hrp, hcf⟩ := ih
      exact ⟨r, d ++ [t], by simp, hrm, hrp, chainFrom_append hcf hm hp⟩

theorem tasks_nodup {ts : List Task}
    (hn : (ts.map (fun t => t.task_id)).Nodup) : ts.Nodup :=
  List.Nodup.of_map _ hn

theorem filter_id_eq_singleton {ts : List Task}
    (hn : (ts.map (fun t => t.task_id)).Nodup) {t : Task} (ht : t ∈ ts) :
    ts.filter (fun x => x.task_id == t.task_id) = [t] := by
  induction ts with
  | nil => cases ht
  | cons h rest ih =>
      have hn' : (rest.map (fun t => t.task_id)).Nodup :=
        (List.nodup_cons.1 (by simpa using hn)).2
      have hhead : h.task_id ∉ rest.map (fun t => t.task_id) :=
        (List.nodup_cons.1 (by simpa using hn)).1
      rw [List.filter_cons]
      rcases List.mem_cons.1 ht with rfl | hmem
      · rw [if_pos (by simp)]
        have hrest : rest.filter (fun x => x.task_id == t.task_id) = [] := by
          rw [List.filter_eq_nil_iff]
          intro x hx hbeq
          exact hhead (by
            have hxid : x.task_id = t.task_id := by simpa using hbeq
            exact hxid ▸ List.mem_map.2 ⟨x, hx, rfl⟩)
        rw [hrest]
      · have hne : h.task_id ≠ t.task_id := by
          intro he
          exact hhead (he ▸ List.mem_map.2 ⟨t, hmem, rfl⟩)
        rw [if_neg (by simpa using hne)]
        exact ih hn' hmem

theorem idMap_nodup {ts : List Task}
    (hn : (ts.map (fun t => t.task_id)).Nodup) {t : Task} (ht : t ∈ ts) :
    idMap ts t.task_id = some t := by
  unfold idMap
  rw [filter_id_eq_singleton hn ht]
  rfl

theorem buildNode_succ_eq {ts : List Task}
    (hn : (ts.map (fun t => t.task_id)).Nodup) (fuel : Nat) (u : Task) :
    buildNode ts (fuel + 1) u =
      ⟨u, (ts.filter (fun t => t.parent_task_id == some u.task_id)).map
        (buildNode ts fuel)⟩ := by
  have h0 : buildNode ts (fuel + 1) u =
      ⟨u, (ts.filter (fun t => t.parent_task_id == some u.task_id)).map
        (fun t => buildNode ts fuel ((idMap ts t.task_id).getD t))⟩ := rfl
  rw [h0]
  congr 1
  apply List.map_congr_left
  intro t ht
  rw [idMap_nodup hn (List.mem_of_mem_filter ht)]
  rfl

theorem buildNode_task (ts : List Task) (fuel : Nat) (u : Task) :
    (buildNode ts fuel u).task = u := by
  cases fuel <;> rfl

theorem flatForest_nil : flatForest [] = [] := rfl

theorem flatForest_cons (n : TNode) (ns : List TNode) :
    flatForest (n :: ns) = flatNode n ++ flatForest ns := rfl

theorem flatNode_mk (t : Task) (cs : List TNode) :
    flatNode ⟨t, cs⟩ = t :: flatForest cs := rfl

theorem count_forest {ts : List Task} (fuel : Nat) (x : Task) :
    ∀ S : List Task, S.Nodup →
      (∀ t ∈ S, (∃ d, ChainFrom ts t d x) →
        (flatNode (buildNode ts fuel t)).count x = 1) →
      (∀ t ∈ S, ¬ (∃ d, ChainFrom ts t d x) →
        (flatNode (buildNode ts fuel t)).count x = 0) →
      (∀ t₁ ∈ S, ∀ t₂ ∈ S, (∃ d, ChainFrom ts t₁ d x) →
        (∃ d, ChainFrom ts t₂ d x) → t₁ = t₂) →
      ((∃ t ∈ S, ∃ d, ChainFrom ts t d x) →
        (flatForest (S.map (buildNode ts fuel))).count x = 1) ∧
      (¬ (∃ t ∈ S, ∃ d, ChainFrom ts t d x) →
        (flatForest (S.map (buildNode ts fuel))).count x = 0) := by
  intro S
  induction S with
  | nil =>
      intro _ _ _ _
      constructor
      · rintro ⟨t, ht, _⟩
        cases ht
      · intro _
        rfl
  | cons a S' ih =>
      intro hnd hone hzero huniq
      have hanotin := (List.nodup_cons.1 hnd).1
      have ihx := ih (List.nodup_cons.1 hnd).2
        (fun t ht => hone t (List.mem_cons_of_mem _ ht))
        (fun t ht => hzero t (List.mem_cons_of_mem _ ht))
        (fun t₁ h₁ t₂ h₂ =>
          huniq t₁ (List.mem_cons_of_mem _ h₁) t₂ (List.mem_cons_of_mem _ h₂))
      have hsplit : (flatForest ((a :: S').map (buildNode ts fuel))).count x =
          (flatNode (buildNode ts fuel a)).count x +
            (flatForest (S'.map (buildNode ts fuel))).count x := by
        rw [List.map_cons, flatForest_cons, List.count_append]
      by_cases ha : ∃ d, ChainFrom ts a d x
      · constructor
        · intro _
          have hnoS' : ¬ ∃ t ∈ S', ∃ d, ChainFrom ts t d x := by
            rintro ⟨t, ht, hd⟩
            have hta : t = a :=
              huniq t (List.mem_cons_of_mem _ ht) a (List.mem_cons_self _ _) hd ha
            exact hanotin (hta ▸ ht)
          rw [hsplit, hone a (List.mem_cons_self _ _) ha, ihx.2 hnoS']
        · intro hno
          exact absurd ⟨a, List.mem_cons_self _ _, ha⟩ hno
      · constructor
        · rintro ⟨t, ht, hd⟩
          rcases List.mem_cons.1 ht with rfl | ht'
          · exact absurd hd ha
          · rw [hsplit, hzero a (List.mem_cons_self _ _) ha, ihx.1 ⟨t, ht', hd⟩]
        · intro hno
          have hnoS' : ¬ ∃ t ∈ S', ∃ d, ChainFrom ts t d x := by
            rintro ⟨t, ht, hd⟩
            exact hno ⟨t, List.mem_cons_of_mem _ ht, hd⟩
          rw [hsplit, hzero a (List.mem_cons_self _ _) ha, ihx.2 hnoS']

theorem buildNode_count {ts : List Task}
    (hn : (ts.map (fun t => t.task_id)).Nodup) :
    ∀ (fuel : Nat) (u : Task) (c : List Task), ChainTo ts c u →
      ts.length + 1 ≤ c.length + fuel →
      ∀ x : Task,
        ((∃ d, ChainFrom ts u d x) →
          (flatNode (buildNode ts fuel u)).count x = 1) ∧
        (¬ (∃ d, ChainFrom ts u d x) →
          (flatNode (buildNode ts fuel u)).count x = 0) := by
  intro fuel
  induction fuel with
  | zero =>
      intro u c hc hlen x
      have := chainTo_length_le hn hc
      omega
  | succ fuel ih =>
      intro u c hc hlen x
      rw [buildNode_succ_eq hn, flatNode_mk]
      have hmem : ∀ t ∈ ts.filter (fun t => t.parent_task_id == some u.task_id),
          t ∈ ts ∧ t.parent_task_id = some u.task_id := by
        intro t ht
        refine ⟨List.mem_of_mem_filter ht, ?_⟩
        have := List.of_mem_filter ht
        simpa using this
      have hSn : (ts.filter (fun t => t.parent_task_id == some u.task_id)).Nodup :=
        (tasks_nodup hn).filter _
      have hchild := fun t ht =>
        ih t (c ++ [t]) (ChainTo.step hc (hmem t ht).1 (hmem t ht).2)
          (by simp only [List.length_append, List.length_singleton]; omega) x
      have huniq : ∀ t₁ ∈ ts.filter (fun t => t.parent_task_id == some u.task_id),
          ∀ t₂ ∈ ts.filter (fun t => t.parent_task_id == some u.task_id),
          (∃ d, ChainFrom ts t₁ d x) → (∃ d, ChainFrom ts t₂ d x) → t₁ = t₂ := by
        rintro t₁ h₁ t₂ h₂ ⟨d₁, hd₁⟩ ⟨d₂, hd₂⟩
        have hc₁ : ChainTo ts ((c ++ [t₁]) ++ d₁) x :=
          chainTo_compose hd₁ (ChainTo.step hc (hmem t₁ h₁).1 (hmem t₁ h₁).2)
        have hc₂ : ChainTo ts ((c ++ [t₂]) ++ d₂) x :=
          chainTo_compose hd₂ (ChainTo.step hc (hmem t₂ h₂).1 (hmem t₂ h₂).2)
        have heq := chainTo_unique hn hc₁ hc₂
        rw [List.append_assoc, List.append_assoc] at heq
        have heq2 := List.append_cancel_left heq
        rw [List.singleton_append, List.singleton_append] at heq2
        exact (List.cons_eq_cons.1 heq2).1
      obtain ⟨hcf1, hcf2⟩ :=
        count_forest fuel x (ts.filter (fun t => t.parent_task_id == some u.task_id))
          hSn (fun t ht => (hchild t ht).1) (fun t ht => (hchild t ht).2) huniq
      by_cases hux : ∃ d, ChainFrom ts u d x
      · refine ⟨fun _ => ?_, fun hno => absurd hux hno⟩
        obtain ⟨d, hd⟩ := hux
        cases hd with
        | refl =>
            have hnochild : ¬ ∃ t ∈
                ts.filter (fun t => t.parent_task_id == some u.task_id),
                ∃ d', ChainFrom ts t d' u := by
              rintro ⟨t, htS, d', hd'⟩
              have hctf : ChainTo ts ((c ++ [t]) ++ d') u :=
                chainTo_compose hd' (ChainTo.step hc (hmem t htS).1 (hmem t htS).2)
              have heq := chainTo_unique hn hc hctf
              have := congrArg List.length heq
              simp at this
            rw [List.count_cons_self, hcf2 hnochild]
        | @step _ w _ d' hw hpw hcf =>
            have hwS : w ∈ ts.filter (fun t => t.parent_task_id == some u.task_id) :=
              List.mem_filter.2 ⟨hw, by simp [hpw]⟩
            have hxu : x ≠ u := by
              intro he
              subst he
              have hfull : ChainTo ts (c ++ (w :: d')) x :=
                chainTo_compose (ChainFrom.step hw hpw hcf) hc
              have heq := chainTo_unique hn hc hfull
              have := congrArg List.length heq
              simp at this
            rw [List.count_cons_of_ne hxu, hcf1 ⟨w, hwS, d', hcf⟩]
      · refine ⟨fun hex => absurd hex hux, fun _ => ?_⟩
        have hxu : x ≠ u := by
          intro he
          subst he
          exact hux ⟨[], ChainFrom.refl x⟩
        have hnochild : ¬ ∃ t ∈
            ts.filter (fun t => t.parent_task_id == some u.task_id),
            ∃ d', ChainFrom ts t d' x := by
          rintro ⟨t, htS, d', hd'⟩
          exact hux ⟨t :: d', ChainFrom.step (hmem t htS).1 (hmem t htS).2 hd'⟩
        rw [List.count_cons_of_ne hxu, hcf2 hnochild]

theorem allNodesOf_mk (t : Task) (cs : List TNode) :
    allNodesOf ⟨t, cs⟩ = ⟨t, cs⟩ :: allNodesForest cs := rfl

theorem allNodesForest_nil : allNodesForest [] = [] := rfl

theorem allNodesForest_cons (n : TNode) (ns : List TNode) :
    allNodesForest (n :: ns) = allNodesOf n ++ allNodesForest ns := rfl

theorem mem_allNodesForest_map (nd : TNode) (f : Task → TNode) :
    ∀ S : List Task,
      (nd ∈ allNodesForest (S.map f) ↔ ∃ t ∈ S, nd ∈ allNodesOf (f t)) := by
  intro S
  induction S with
  | nil =>
      rw [List.map_nil, allNodesForest_nil]
      simp
  | cons a S' ih =>
      rw [List.map_cons, allNodesForest_cons]
      simp only [List.mem_append, ih, List.mem_cons]
      constructor
      · rintro (h | ⟨t, ht, hmem⟩)
        · exact ⟨a, Or.inl rfl, h⟩
        · exact ⟨t, Or.inr ht, hmem⟩
      · rintro ⟨t, rfl | ht, hmem⟩
        · exact Or.inl hmem
        · exact Or.inr ⟨t, ht, hmem⟩

theorem buildNode_allNodes {ts : List Task}
    (hn : (ts.map (fun t => t.task_id)).Nodup) :
    ∀ (fuel : Nat) (u : Task) (c : List Task), ChainTo ts c u →
      ts.length + 1 ≤ c.length + fuel →
      ∀ nd ∈ allNodesOf (buildNode ts fuel u),
        nd.children.map TNode.task =
          ts.filter (fun t => t.parent_task_id == some nd.task.task_id) := by
  intro fuel
  induction fuel with
  | zero =>
      intro u c hc hlen
      have := chainTo_length_le hn hc
      omega
  | succ fuel ih =>
      intro u c hc hlen nd hnd
      rw [buildNode_succ_eq hn, allNodesOf_mk] at hnd
      have hmem : ∀ t ∈ ts.filter (fun t => t.parent_task_id == some u.task_id),
          t ∈ ts ∧ t.parent_task_id = some u.task_id := by
        intro t ht
        refine ⟨List.mem_of_mem_filter ht, ?_⟩
        have := List.of_mem_filter ht
        simpa using this
      rcases List.mem_cons.1 hnd with rfl | hnd'
      · show ((ts.filter (fun t => t.parent_task_id == some u.task_id)).map
          (buildNode ts fuel)).map TNode.task = _
        rw [List.map_map]
        have hcomp : TNode.task ∘ buildNode ts fuel = id :=
          funext (fun t => buildNode_task ts fuel t)
        rw [hcomp, List.map_id]
        rfl
      · obtain ⟨t, htS, hmemnd⟩ := (mem_allNodesForest_map nd _ _).1 hnd'
        exact ih t (c ++ [t])
          (ChainTo.step hc (hmem t htS).1 (hmem t htS).2)
          (by simp only [List.length_append, List.length_singleton]; omega)
          nd hmemnd

/-- C9 (amended: the input records carry pairwise-distinct task ids):
`buildTree` returns a forest holding exactly the records reachable from
a root through parent references present in the input — records with an
absent parent are silently omitted — with every reachable record
appearing exactly once, as a child of its referenced parent. -/
theorem buildTree_spec (ts : List Task)
    (hn : (ts.map (fun t => t.task_id)).Nodup) : BuildTreeSpec ts := by
  have hroots : buildTree ts =
      (ts.filter (fun t => t.parent_task_id == none)).map
        (buildNode ts ts.length) := by
    unfold buildTree
    apply List.map_congr_left
    intro t ht
    rw [idMap_nodup hn (List.mem_of_mem_filter ht)]
    rfl
  have hrmem : ∀ t ∈ ts.filter (fun t => t.parent_task_id == none),
      t ∈ ts ∧ t.parent_task_id = none := by
    intro t ht
    refine ⟨List.mem_of_mem_filter ht, ?_⟩
    have := List.of_mem_filter ht
    simpa using this
  have hrchain : ∀ t ∈ ts.filter (fun t => t.parent_task_id == none),
      ChainTo ts [t] t :=
    fun t ht => ChainTo.root (hrmem t ht).1 (hrmem t ht).2
  have hlen1 : ∀ t : Task, ts.length + 1 ≤ ([t] : List Task).length + ts.length := by
    intro t
    simp only [List.length_singleton]
    omega
  have huniq : ∀ x : Task,
      ∀ t₁ ∈ ts.filter (fun t => t.parent_task_id == none),
      ∀ t₂ ∈ ts.filter (fun t => t.parent_task_id == none),
      (∃ d, ChainFrom ts t₁ d x) → (∃ d, ChainFrom ts t₂ d x) → t₁ = t₂ := by
    rintro x t₁ h₁ t₂ h₂ ⟨d₁, hd₁⟩ ⟨d₂, hd₂⟩
    have hc₁ : ChainTo ts ([t₁] ++ d₁) x := chainTo_compose hd₁ (hrchain t₁ h₁)
    have hc₂ : ChainTo ts ([t₂] ++ d₂) x := chainTo_compose hd₂ (hrchain t₂ h₂)
    have heq := chainTo_unique hn hc₁ hc₂
    rw [List.singleton_append, List.singleton_append] at heq
    exact (List.cons_eq_cons.1 heq).1
  have htop := fun x : Task =>
    count_forest ts.length x (ts.filter (fun t => t.parent_task_id == none))
      ((tasks_nodup hn).filter _)
      (fun t ht =>
        (buildNode_count hn ts.length t [t] (hrchain t ht) (hlen1 t) x).1)
      (fun t ht =>
        (buildNode_count hn ts.length t [t] (hrchain t ht) (hlen1 t) x).2)
      (huniq x)
  have hbridge : ∀ x : Task,
      (∃ t ∈ ts.filter (fun t => t.parent_task_id == none),
        ∃ d, ChainFrom ts t d x) ↔ Reachable ts x := by
    intro x
    constructor
    · rintro ⟨t, ht, d, hd⟩
      exact reachable_iff_chainTo.2 ⟨[t] ++ d, chainTo_compose hd (hrchain t ht)⟩
    · intro hr
      obtain ⟨cx, hc⟩ := reachable_iff_chainTo.1 hr
      obtain ⟨r, d, rfl, hrm, hrp, hcf⟩ := chainTo_decompose hc
      exact ⟨r, List.mem_filter.2 ⟨hrm, by simp [hrp]⟩, d, hcf⟩
  refine ⟨?_, ?_, ?_⟩
  · intro t
    rw [hroots]
    constructor
    · intro hmem
      by_contra hnr
      have h0 := (htop t).2 (fun hex => hnr ((hbridge t).1 hex))
      have hpos := List.count_pos_iff.2 hmem
      omega
    · intro hr
      have h1 := (htop t).1 ((hbridge t).2 hr)
      exact List.count_pos_iff.1 (by omega)
  · intro t hr
    rw [hroots]
    exact (htop t).1 ((hbridge t).2 hr)
  · intro nd hnd
    rw [hroots] at hnd
    obtain ⟨t, htS, hmemnd⟩ := (mem_allNodesForest_map nd _ _).1 hnd
    exact buildNode_allNodes hn ts.length t [t] (hrchain t htS) (hlen1 t) nd hmemnd

/-- Witness for the amended C9 at a concrete input: the example store
(distinct ids, one root, two children). -/
theorem buildTree_spec_witness :
    (exStore.map (fun t => t.task_id)).Nodup ∧ BuildTreeSpec exStore :=
  ⟨by decide, buildTree_spec exStore (by decide)⟩

end IIMC
